import Mathlib

/-!
Verification of the graph-query evaluation engine and scoring engine of the
graphwalk benchmark repository.

The node type is abstracted as a linearly ordered type `α` (node identifiers
in the source are opaque strings compared and sorted lexicographically).
A directed graph is the item list of a Python dict mapping each source node
to its ordered list of destination nodes.
-/

namespace GraphWalk

variable {α : Type} [LinearOrder α]

/-- A directed graph: the items of a Python dict mapping each source node to
its ordered list of destinations (`collections.defaultdict(list)` in
`classic_technique.py`). -/
abbrev Graph (α : Type) := List (α × List α)

/-- `graph.get(node, [])`: the destination list of the first entry whose key
is `u`, or `[]` when `u` is not a key. -/
def adj : Graph α → α → List α
  | [], _ => []
  | (k, vs) :: rest, u => if k = u then vs else adj rest u

/-- `graph[source].append(dest)` on a `defaultdict(list)`: append `v` to the
destination list of `u`, creating the entry (at the end, in insertion order)
if `u` is not yet a key. -/
def addEdge : Graph α → α → α → Graph α
  | [], u, v => [(u, [v])]
  | (k, vs) :: rest, u, v =>
      if k = u then (k, vs ++ [v]) :: rest else (k, vs) :: addEdge rest u v

/-- Build the adjacency dict from an edge list by repeated
`graph[source].append(dest)`, as the graph-construction loops do. -/
def buildGraph (edges : List (α × α)) : Graph α :=
  edges.foldl (fun g e => addEdge g e.1 e.2) []

/-- One round of the level-synchronous frontier expansion in
`find_bfs_at_depth` (`classic_technique.py` lines 31-41): the next level is
the set of not-yet-visited neighbors of the current level, and all of them
become visited.  The Python loop mutates `visited` while iterating over the
current level set, but a neighbor added to `visited` during the loop is also
added to `next_level_nodes`, so the final sets are exactly these. -/
def bfsStep (g : Graph α) (st : Finset α × Finset α) : Finset α × Finset α :=
  ((st.1.biUnion fun u => (adj g u).toFinset) \ st.2,
   st.2 ∪ ((st.1.biUnion fun u => (adj g u).toFinset) \ st.2))

/-- The (current level, visited) pair after `n` rounds of expansion, starting
from `({start}, {start})`. -/
def bfsIter (g : Graph α) (start : α) : ℕ → Finset α × Finset α
  | 0 => ({start}, {start})
  | n + 1 => bfsStep g (bfsIter g start n)

/-- `find_bfs_at_depth(graph, start_node, depth)` from
`classic_technique.py`: return `[]` for depth 0, otherwise run `depth`
expansion rounds and return the sorted current level.  The Python `break`
when the level becomes empty is a pure optimization: expanding an empty
level yields an empty level, so iterating the remaining rounds returns the
same (empty) set. -/
def find_bfs_at_depth (g : Graph α) (start : α) (depth : ℕ) : List α :=
  if depth = 0 then []
  else ((bfsIter g start depth).1).sort (· ≤ ·)

/-- `v` is reachable from `start` by a walk of exactly `n` outgoing edges. -/
def reachN (g : Graph α) (start : α) : ℕ → α → Prop
  | 0, v => v = start
  | n + 1, v => ∃ u, reachN g start n u ∧ v ∈ adj g u

/-- The shortest-path distance from `start` to `v` is exactly `d`. -/
def distEq (g : Graph α) (start : α) (d : ℕ) (v : α) : Prop :=
  reachN g start d v ∧ ∀ m < d, ¬ reachN g start m v

theorem exists_distEq_of_reachN {g : Graph α} {start v : α} :
    ∀ n, reachN g start n v → ∃ j ≤ n, distEq g start j v := by
  intro n
  induction n using Nat.strong_induction_on with
  | _ n ih =>
    intro h
    by_cases hmin : ∀ m < n, ¬ reachN g start m v
    · exact ⟨n, le_refl n, h, hmin⟩
    · push_neg at hmin
      obtain ⟨m, hm, hr⟩ := hmin
      obtain ⟨j, hj, hd⟩ := ih m hm hr
      exact ⟨j, le_trans hj (le_of_lt hm), hd⟩

/-- The BFS invariant: after `n` rounds the current level is exactly the set
of nodes at shortest-path distance `n`, and the visited set is exactly the
set of nodes at distance at most `n`. -/
theorem bfsIter_mem (g : Graph α) (start : α) :
    ∀ n, (∀ v, v ∈ (bfsIter g start n).1 ↔ distEq g start n v) ∧
         (∀ v, v ∈ (bfsIter g start n).2 ↔ ∃ j ≤ n, distEq g start j v) := by
  intro n
  induction n with
  | zero =>
    constructor
    · intro v
      simp only [bfsIter, Finset.mem_singleton]
      constructor
      · rintro rfl
        exact ⟨rfl, by intro m hm; omega⟩
      · rintro ⟨h, -⟩
        exact h
    · intro v
      simp only [bfsIter, Finset.mem_singleton]
      constructor
      · rintro rfl
        exact ⟨0, le_refl 0, rfl, by intro m hm; omega⟩
      · rintro ⟨j, hj, hr, -⟩
        interval_cases j
        exact hr
  | succ n ih =>
    obtain ⟨ih1, ih2⟩ := ih
    have h1 : ∀ v, v ∈ (bfsIter g start (n + 1)).1 ↔ distEq g start (n + 1) v := by
      intro v
      show v ∈ ((bfsIter g start n).1.biUnion fun u => (adj g u).toFinset) \
          (bfsIter g start n).2 ↔ _
      rw [Finset.mem_sdiff, Finset.mem_biUnion]
      constructor
      · rintro ⟨⟨u, hu, hv⟩, hnv⟩
        rw [List.mem_toFinset] at hv
        obtain ⟨hru, -⟩ := (ih1 u).mp hu
        refine ⟨⟨u, hru, hv⟩, ?_⟩
        intro m hm hr
        obtain ⟨j, hj, hd⟩ := exists_distEq_of_reachN m hr
        exact hnv ((ih2 v).mpr ⟨j, by omega, hd⟩)
      · rintro ⟨⟨u, hru, hv⟩, hmin⟩
        obtain ⟨j, hj, hdu⟩ := exists_distEq_of_reachN n hru
        have hjn : j = n := by
          by_contra hne
          have hjlt : j < n := lt_of_le_of_ne hj hne
          exact hmin (j + 1) (by omega) ⟨u, hdu.1, hv⟩
        subst hjn
        refine ⟨⟨u, (ih1 u).mpr hdu, List.mem_toFinset.mpr hv⟩, ?_⟩
        intro hmem
        obtain ⟨j', hj', hd'⟩ := (ih2 v).mp hmem
        exact hmin j' (by omega) hd'.1
    refine ⟨h1, ?_⟩
    intro v
    show v ∈ (bfsIter g start n).2 ∪ _ ↔ _
    rw [Finset.mem_union]
    constructor
    · rintro (h | h)
      · obtain ⟨j, hj, hd⟩ := (ih2 v).mp h
        exact ⟨j, by omega, hd⟩
      · exact ⟨n + 1, le_refl _, (h1 v).mp h⟩
    · rintro ⟨j, hj, hd⟩
      rcases Nat.lt_or_ge j (n + 1) with hlt | hge
      · exact Or.inl ((ih2 v).mpr ⟨j, by omega, hd⟩)
      · have : j = n + 1 := by omega
        subst this
        exact Or.inr ((h1 v).mpr hd)

/-- C1: for every directed graph, start node and depth `d ≥ 0`,
`find_bfs_at_depth` returns exactly the sorted, duplicate-free sequence of
nodes `v ≠ start` whose shortest-path distance from `start` via outgoing
edges is exactly `d`; in particular the result is `[]` for `d = 0`, and `[]`
for any `d` at which no node has that distance (``d`` beyond the
eccentricity of `start`). -/
theorem C1_find_bfs_at_depth_spec (g : Graph α) (start : α) (d : ℕ) :
    (find_bfs_at_depth g start d).Sorted (· < ·) ∧
    find_bfs_at_depth g start 0 = [] ∧
    ∀ v, v ∈ find_bfs_at_depth g start d ↔ (v ≠ start ∧ distEq g start d v) := by
  refine ⟨?_, rfl, ?_⟩
  · unfold find_bfs_at_depth
    by_cases hd : d = 0
    · simp [hd]
    · simp only [hd, if_false]
      exact Finset.sort_sorted_lt _
  · intro v
    unfold find_bfs_at_depth
    match d with
    | 0 =>
      rw [if_pos rfl]
      simp only [List.not_mem_nil, false_iff, not_and]
      intro hne hd
      exact hne hd.1
    | n + 1 =>
      rw [if_neg (Nat.succ_ne_zero n), Finset.mem_sort]
      rw [(bfsIter_mem g start (n + 1)).1 v]
      constructor
      · intro h
        refine ⟨?_, h⟩
        intro hv
        subst hv
        exact h.2 0 (Nat.succ_pos n) rfl
      · exact fun h => h.2

/-- `find_parents(graph, target_node)` from `classic_technique.py`: the set
of source nodes whose destination list contains the target. -/
def parentsSet (g : Graph α) (t : α) : Finset α :=
  ((g.filter fun p => decide (t ∈ p.2)).map Prod.fst).toFinset

/-- `find_parents` returns the parent set as a sorted list. -/
def find_parents (g : Graph α) (t : α) : List α :=
  (parentsSet g t).sort (· ≤ ·)

theorem mem_parentsSet {g : Graph α} {t w : α} :
    w ∈ parentsSet g t ↔ ∃ vs, (w, vs) ∈ g ∧ t ∈ vs := by
  unfold parentsSet
  rw [List.mem_toFinset, List.mem_map]
  constructor
  · rintro ⟨⟨w', vs⟩, hp, rfl⟩
    rw [List.mem_filter] at hp
    exact ⟨vs, hp.1, by simpa using hp.2⟩
  · rintro ⟨vs, hmem, ht⟩
    exact ⟨(w, vs), List.mem_filter.mpr ⟨hmem, by simpa using ht⟩, rfl⟩

theorem mem_parentsSet_cons {rest : Graph α} {k : α} {us : List α} {t w : α} :
    w ∈ parentsSet ((k, us) :: rest) t ↔ ((w = k ∧ t ∈ us) ∨ w ∈ parentsSet rest t) := by
  simp only [mem_parentsSet, List.mem_cons, Prod.mk.injEq]
  constructor
  · rintro ⟨vs, h | h, ht⟩
    · obtain ⟨rfl, rfl⟩ := h
      exact Or.inl ⟨rfl, ht⟩
    · exact Or.inr ⟨vs, h, ht⟩
  · rintro (⟨rfl, ht⟩ | ⟨vs, h, ht⟩)
    · exact ⟨us, Or.inl ⟨rfl, rfl⟩, ht⟩
    · exact ⟨vs, Or.inr h, ht⟩

theorem parentsSet_nil (t : α) : parentsSet ([] : Graph α) t = ∅ := rfl

theorem entry_of_mem_adj {g : Graph α} {u v : α} (h : v ∈ adj g u) :
    (u, adj g u) ∈ g := by
  induction g with
  | nil => simp [adj] at h
  | cons p rest ih =>
    obtain ⟨k, vs⟩ := p
    by_cases hk : k = u
    · subst hk
      rw [adj, if_pos rfl] at h ⊢
      exact List.mem_cons_self _ _
    · rw [adj, if_neg hk] at h ⊢
      exact List.mem_cons_of_mem _ (ih h)

theorem adj_eq_of_mem {g : Graph α} (hg : (g.map Prod.fst).Nodup) {w : α}
    {vs : List α} (h : (w, vs) ∈ g) : adj g w = vs := by
  induction g with
  | nil => simp at h
  | cons p rest ih =>
    obtain ⟨k, us⟩ := p
    rw [List.map_cons, List.nodup_cons] at hg
    rcases List.mem_cons.mp h with heq | hmem
    · injection heq with h1 h2
      subst h1
      subst h2
      rw [adj, if_pos rfl]
    · have hkw : k ≠ w := by
        intro hkw
        subst hkw
        exact hg.1 (List.mem_map.mpr ⟨(k, vs), hmem, rfl⟩)
      rw [adj, if_neg hkw]
      exact ih hg.2 hmem

theorem mem_adj_iff {g : Graph α} (hg : (g.map Prod.fst).Nodup) {t w : α} :
    t ∈ adj g w ↔ ∃ vs, (w, vs) ∈ g ∧ t ∈ vs := by
  constructor
  · intro h
    exact ⟨adj g w, entry_of_mem_adj h, h⟩
  · rintro ⟨vs, hmem, ht⟩
    rw [adj_eq_of_mem hg hmem]
    exact ht

theorem addEdge_nil (u v : α) : addEdge ([] : Graph α) u v = [(u, [v])] := rfl

theorem addEdge_cons_pos {rest : Graph α} {k u : α} (us : List α) (v : α)
    (hk : k = u) : addEdge ((k, us) :: rest) u v = (k, us ++ [v]) :: rest := by
  rw [addEdge, if_pos hk]

theorem addEdge_cons_neg {rest : Graph α} {k u : α} (us : List α) (v : α)
    (hk : ¬ k = u) : addEdge ((k, us) :: rest) u v = (k, us) :: addEdge rest u v := by
  rw [addEdge, if_neg hk]

/-- The effect of `graph[u].append(v)` on adjacency lists. -/
theorem adj_addEdge (g : Graph α) (u v w : α) :
    adj (addEdge g u v) w = if w = u then adj g u ++ [v] else adj g w := by
  induction g with
  | nil =>
    by_cases hw : w = u
    · subst hw
      simp [addEdge_nil, adj]
    · have hw' : ¬ u = w := fun h => hw h.symm
      simp [addEdge_nil, adj, hw, hw']
  | cons p rest ih =>
    obtain ⟨k, us⟩ := p
    by_cases hk : k = u
    · subst hk
      rw [addEdge_cons_pos us v rfl]
      by_cases hw : w = k
      · subst hw
        simp [adj]
      · have hw' : ¬ k = w := fun h => hw h.symm
        simp [adj, hw, hw']
    · rw [addEdge_cons_neg us v hk]
      by_cases hw : w = k
      · have hku : ¬ w = u := fun h => hk (hw.symm.trans h)
        have hkw : k = w := hw.symm
        simp [adj, hkw, hku]
      · have hkw : ¬ k = w := fun h => hw h.symm
        simp [adj, hk, hkw, ih]

/-- Membership in the parent set after an edge addition. -/
theorem mem_parentsSet_addEdge (g : Graph α) (u v t w : α) :
    w ∈ parentsSet (addEdge g u v) t ↔ ((t = v ∧ w = u) ∨ w ∈ parentsSet g t) := by
  induction g with
  | nil =>
    rw [addEdge_nil, mem_parentsSet_cons]
    simp only [parentsSet_nil, Finset.not_mem_empty, or_false, List.mem_singleton]
    tauto
  | cons p rest ih =>
    obtain ⟨k, us⟩ := p
    by_cases hk : k = u
    · subst hk
      rw [addEdge_cons_pos us v rfl, mem_parentsSet_cons, mem_parentsSet_cons]
      simp only [List.mem_append, List.mem_singleton]
      constructor
      · rintro (⟨rfl, ht | rfl⟩ | h)
        · exact Or.inr (Or.inl ⟨rfl, ht⟩)
        · exact Or.inl ⟨rfl, rfl⟩
        · exact Or.inr (Or.inr h)
      · rintro (⟨rfl, rfl⟩ | ⟨rfl, ht⟩ | h)
        · exact Or.inl ⟨rfl, Or.inr rfl⟩
        · exact Or.inl ⟨rfl, Or.inl ht⟩
        · exact Or.inr h
    · rw [addEdge_cons_neg us v hk, mem_parentsSet_cons, mem_parentsSet_cons, ih]
      tauto

/-- Effect of `addEdge` on the parent sets: only `u`'s membership in the
parent set of `v` can change. -/
theorem parentsSet_addEdge (g : Graph α) (u v t : α) :
    parentsSet (addEdge g u v) t =
      if t = v then insert u (parentsSet g t) else parentsSet g t := by
  ext w
  rw [mem_parentsSet_addEdge]
  by_cases htv : t = v
  · subst htv
    rw [if_pos rfl, Finset.mem_insert]
    tauto
  · rw [if_neg htv]
    tauto

/-- C5: `find_parents(g, t)` is the sorted set of nodes with an edge into
`t` (empty when there is none); adding an edge `u -> v` with `v ≠ t` leaves
it unchanged, and adding a not-yet-present edge `u -> t` adds exactly `u`. -/
theorem C5_find_parents_spec (g : Graph α) (t u v : α)
    (hg : (g.map Prod.fst).Nodup) :
    (find_parents g t).Sorted (· < ·) ∧
    (∀ w, w ∈ find_parents g t ↔ t ∈ adj g w) ∧
    (v ≠ t → find_parents (addEdge g u v) t = find_parents g t) ∧
    (t ∉ adj g u →
      u ∉ find_parents g t ∧
      ∀ w, w ∈ find_parents (addEdge g u t) t ↔ (w = u ∨ w ∈ find_parents g t)) := by
  refine ⟨Finset.sort_sorted_lt _, ?_, ?_, ?_⟩
  · intro w
    rw [find_parents, Finset.mem_sort, mem_parentsSet, mem_adj_iff hg]
  · intro hvt
    unfold find_parents
    rw [parentsSet_addEdge, if_neg (fun h => hvt h.symm)]
  · intro hnt
    constructor
    · rw [find_parents, Finset.mem_sort, mem_parentsSet, ← mem_adj_iff hg]
      exact hnt
    · intro w
      rw [find_parents, find_parents, Finset.mem_sort, Finset.mem_sort,
        parentsSet_addEdge, if_pos rfl, Finset.mem_insert]

/-- Witness for C5 on the graph 0->1, 0->2, 1->2, 2->3 (the spec's example
graph A->B, A->C, B->C, C->D with nodes renamed to numbers): adding the
fresh edge 3->2 adds exactly node 3 to the parents of 2. -/
theorem C5_find_parents_spec_witness :
    ((([((0 : ℕ), [1, 2]), (1, [2]), (2, [3])] : Graph ℕ).map Prod.fst).Nodup ∧
      (2 : ℕ) ∉ adj ([((0 : ℕ), [1, 2]), (1, [2]), (2, [3])] : Graph ℕ) 3) ∧
    (3 : ℕ) ∉ find_parents ([((0 : ℕ), [1, 2]), (1, [2]), (2, [3])] : Graph ℕ) 2 ∧
    (∀ w, w ∈ find_parents
        (addEdge ([((0 : ℕ), [1, 2]), (1, [2]), (2, [3])] : Graph ℕ) 3 2) 2 ↔
      (w = 3 ∨ w ∈ find_parents ([((0 : ℕ), [1, 2]), (1, [2]), (2, [3])] : Graph ℕ) 2)) := by
  have h := C5_find_parents_spec ([((0 : ℕ), [1, 2]), (1, [2]), (2, [3])] : Graph ℕ)
    2 3 2 (by decide)
  have h4 := h.2.2.2 (by decide)
  exact ⟨⟨by decide, by decide⟩, h4.1, h4.2⟩

/-- For a graph that already contains the edge `u -> v`, appending a second
copy of `v` changes no adjacency set. -/
theorem adj_toFinset_addEdge_of_mem {g : Graph α} {u v : α} (hv : v ∈ adj g u) :
    ∀ w, (adj (addEdge g u v) w).toFinset = (adj g w).toFinset := by
  intro w
  rw [adj_addEdge]
  by_cases hw : w = u
  · subst hw
    rw [if_pos rfl]
    ext x
    simp only [List.toFinset_append, Finset.mem_union, List.mem_toFinset,
      List.mem_singleton]
    constructor
    · rintro (h | rfl)
      · exact h
      · exact hv
    · exact Or.inl
  · rw [if_neg hw]

/-- C10: duplicate edges never change query answers: if `u -> v` is already
present, appending a second copy leaves every `find_parents` and every
`find_bfs_at_depth` result unchanged. -/
theorem C10_duplicate_edge (g : Graph α) (u v : α) (hv : v ∈ adj g u) :
    (∀ t, find_parents (addEdge g u v) t = find_parents g t) ∧
    (∀ s d, find_bfs_at_depth (addEdge g u v) s d = find_bfs_at_depth g s d) := by
  constructor
  · intro t
    unfold find_parents
    rw [parentsSet_addEdge]
    by_cases htv : t = v
    · subst htv
      rw [if_pos rfl, Finset.insert_eq_self.mpr]
      exact mem_parentsSet.mpr ⟨adj g u, entry_of_mem_adj hv, hv⟩
    · rw [if_neg htv]
  · have hiter : ∀ s n, bfsIter (addEdge g u v) s n = bfsIter g s n := by
      intro s n
      induction n with
      | zero => rfl
      | succ n ih =>
        show bfsStep (addEdge g u v) _ = bfsStep g _
        rw [ih]
        unfold bfsStep
        rw [Finset.biUnion_congr rfl fun w _ => adj_toFinset_addEdge_of_mem hv w]
    intro s d
    unfold find_bfs_at_depth
    rw [hiter]

/-- Witness for C10: duplicating the edge 0 -> 1 in the graph 0->1, 1->2. -/
theorem C10_duplicate_edge_witness :
    (1 : ℕ) ∈ adj ([((0 : ℕ), [1]), (1, [2])] : Graph ℕ) 0 ∧
    find_parents (addEdge ([((0 : ℕ), [1]), (1, [2])] : Graph ℕ) 0 1) 1 =
      find_parents ([((0 : ℕ), [1]), (1, [2])] : Graph ℕ) 1 ∧
    find_bfs_at_depth (addEdge ([((0 : ℕ), [1]), (1, [2])] : Graph ℕ) 0 1) 0 2 =
      find_bfs_at_depth ([((0 : ℕ), [1]), (1, [2])] : Graph ℕ) 0 2 := by
  have h := C10_duplicate_edge ([((0 : ℕ), [1]), (1, [2])] : Graph ℕ) 0 1 (by decide)
  exact ⟨by decide, h.1 1, h.2 0 2⟩

/-! ## Scoring engine

Scores are computed over exact rationals; the Python floats carry exactly
these rational values (each is a single division of small integers). -/

/-- A precision/recall/F1 triple. -/
structure Scores where
  precision : ℚ
  recall' : ℚ
  f1 : ℚ
deriving DecidableEq

variable {β : Type} [DecidableEq β]

/-- `precision` of `calculate_metrics` in `classic_metrics.py` (lines 22-25):
`0.0` when the predicted set is empty, else `TP / |predicted|`. -/
def classicPrecision (P A : Finset β) : ℚ :=
  if P.card = 0 then 0 else ((P ∩ A).card : ℚ) / P.card

/-- `recall` of `calculate_metrics` in `classic_metrics.py` (lines 27-30). -/
def classicRecall (P A : Finset β) : ℚ :=
  if A.card = 0 then (if P.card = 0 then 1 else 0) else ((P ∩ A).card : ℚ) / A.card

/-- `f1_score` of `calculate_metrics` in `classic_metrics.py` (lines 32-35). -/
def classicF1 (p r : ℚ) : ℚ :=
  if p + r = 0 then 0 else 2 * (p * r) / (p + r)

/-- `calculate_metrics(predicted_nodes, true_nodes)` from
`classic_metrics.py`.  A non-list `predicted_nodes` value (the pipeline
stores a parsing-error *string* in the output field) is modelled as `none`
and is replaced by the empty list, exactly as
`if not isinstance(predicted_nodes, list): predicted_nodes = []` does. -/
def calculate_metrics (predicted_nodes : Option (List β)) (true_nodes : List β) : Scores :=
  if (predicted_nodes.getD []).toFinset = ∅ ∧ true_nodes.toFinset = ∅ then ⟨1, 1, 1⟩
  else
    ⟨classicPrecision (predicted_nodes.getD []).toFinset true_nodes.toFinset,
     classicRecall (predicted_nodes.getD []).toFinset true_nodes.toFinset,
     classicF1 (classicPrecision (predicted_nodes.getD []).toFinset true_nodes.toFinset)
       (classicRecall (predicted_nodes.getD []).toFinset true_nodes.toFinset)⟩

/-- `precision` of `calculate_scores` in `calculate_metrics.py` (lines
45-48), phrased on TP and FP counts. -/
def scoresPrecision (tp fp : ℚ) : ℚ :=
  if 0 < tp + fp then tp / (tp + fp) else 0

/-- `recall` of `calculate_scores` in `calculate_metrics.py` (lines 51-56). -/
def scoresRecall (tp fn : ℚ) : ℚ :=
  if 0 < tp + fn then tp / (tp + fn) else 0

/-- `f1_score` of `calculate_scores` in `calculate_metrics.py` (lines 59-62). -/
def scoresF1 (p r : ℚ) : ℚ :=
  if 0 < p + r then 2 * (p * r) / (p + r) else 0

/-- `calculate_scores(true_nodes, predicted_nodes)` from
`calculate_metrics.py`, with `TP = |true ∩ predicted|`,
`FP = |predicted \ true|`, `FN = |true \ predicted|`. -/
def calculate_scores (true_nodes predicted_nodes : List β) : Scores :=
  if true_nodes.toFinset = ∅ ∧ predicted_nodes.toFinset = ∅ then ⟨1, 1, 1⟩
  else
    ⟨scoresPrecision ((true_nodes.toFinset ∩ predicted_nodes.toFinset).card : ℚ)
        ((predicted_nodes.toFinset \ true_nodes.toFinset).card : ℚ),
     scoresRecall ((true_nodes.toFinset ∩ predicted_nodes.toFinset).card : ℚ)
        ((true_nodes.toFinset \ predicted_nodes.toFinset).card : ℚ),
     scoresF1
       (scoresPrecision ((true_nodes.toFinset ∩ predicted_nodes.toFinset).card : ℚ)
         ((predicted_nodes.toFinset \ true_nodes.toFinset).card : ℚ))
       (scoresRecall ((true_nodes.toFinset ∩ predicted_nodes.toFinset).card : ℚ)
         ((true_nodes.toFinset \ predicted_nodes.toFinset).card : ℚ))⟩

/-- `precision` of `calculate_metrics` in `modern_metrics.py` (line 45). -/
def modernPrecision (P A : Finset β) : ℚ :=
  if 0 < P.card then ((P ∩ A).card : ℚ) / P.card else 0

/-- `recall` of `calculate_metrics` in `modern_metrics.py` (lines 47-50). -/
def modernRecall (P A : Finset β) : ℚ :=
  if A.card = 0 then (if P = ∅ then 1 else 0) else ((P ∩ A).card : ℚ) / A.card

/-- `f1_score` of `calculate_metrics` in `modern_metrics.py` (lines 52-55). -/
def modernF1 (p r : ℚ) : ℚ :=
  if p + r = 0 then 0 else 2 * (p * r) / (p + r)

/-- `calculate_metrics(predicted_nodes, true_nodes)` from
`modern_metrics.py`. -/
def calculate_metrics_modern (predicted_nodes true_nodes : List β) : Scores :=
  if predicted_nodes.toFinset = ∅ ∧ true_nodes.toFinset = ∅ then ⟨1, 1, 1⟩
  else
    ⟨modernPrecision predicted_nodes.toFinset true_nodes.toFinset,
     modernRecall predicted_nodes.toFinset true_nodes.toFinset,
     modernF1 (modernPrecision predicted_nodes.toFinset true_nodes.toFinset)
       (modernRecall predicted_nodes.toFinset true_nodes.toFinset)⟩

/-- Modelled from the spec (§4.3): the reference precision,
`TP / |predicted|` when the predicted set is non-empty, else `0.0`. -/
def precisionRef (P A : Finset β) : ℚ :=
  if 0 < P.card then ((P ∩ A).card : ℚ) / P.card else 0

/-- Modelled from the spec (§4.3): the reference recall, `TP / |actual|`
when the actual set is non-empty, else `0.0`. -/
def recallRef (P A : Finset β) : ℚ :=
  if 0 < A.card then ((P ∩ A).card : ℚ) / A.card else 0

/-- Modelled from the spec (§4.3): the reference F1,
`2·precision·recall / (precision + recall)` when the denominator is
positive, else `0.0`. -/
def f1Ref (p r : ℚ) : ℚ :=
  if 0 < p + r then 2 * p * r / (p + r) else 0

/-- Modelled from the spec (§4.3): the reference scoring formula on a pair
of finite node sets. -/
def refScore (P A : Finset β) : Scores :=
  if P = ∅ ∧ A = ∅ then ⟨1, 1, 1⟩
  else ⟨precisionRef P A, recallRef P A, f1Ref (precisionRef P A) (recallRef P A)⟩

theorem precisionRef_nonneg (P A : Finset β) : 0 ≤ precisionRef P A := by
  unfold precisionRef
  split_ifs
  · positivity
  · exact le_refl 0

theorem recallRef_nonneg (P A : Finset β) : 0 ≤ recallRef P A := by
  unfold recallRef
  split_ifs
  · positivity
  · exact le_refl 0

theorem classicPrecision_eq (P A : Finset β) : classicPrecision P A = precisionRef P A := by
  unfold classicPrecision precisionRef
  by_cases h : P.card = 0
  · rw [if_pos h, if_neg (by omega)]
  · rw [if_neg h, if_pos (Nat.pos_of_ne_zero h)]

theorem classicRecall_eq (P A : Finset β) (h : ¬(P = ∅ ∧ A = ∅)) :
    classicRecall P A = recallRef P A := by
  unfold classicRecall recallRef
  by_cases hA : A.card = 0
  · have hA' : A = ∅ := Finset.card_eq_zero.mp hA
    have hPc : ¬ P.card = 0 := fun hc => h ⟨Finset.card_eq_zero.mp hc, hA'⟩
    rw [if_pos hA, if_neg hPc, if_neg (by omega)]
  · rw [if_neg hA, if_pos (Nat.pos_of_ne_zero hA)]

theorem classicF1_eq (p r : ℚ) (hp : 0 ≤ p) (hr : 0 ≤ r) : classicF1 p r = f1Ref p r := by
  unfold classicF1 f1Ref
  by_cases h : p + r = 0
  · rw [if_pos h, if_neg (by rw [h]; exact lt_irrefl 0)]
  · have hlt : 0 < p + r := lt_of_le_of_ne (by linarith) (Ne.symm h)
    rw [if_neg h, if_pos hlt]
    ring_nf

theorem calculate_metrics_eq_refScore (predicted actual : List β) :
    calculate_metrics (some predicted) actual = refScore predicted.toFinset actual.toFinset := by
  unfold calculate_metrics refScore
  dsimp only [Option.getD]
  by_cases h : predicted.toFinset = ∅ ∧ actual.toFinset = ∅
  · rw [if_pos h, if_pos h]
  · rw [if_neg h, if_neg h, classicPrecision_eq, classicRecall_eq _ _ h,
      classicF1_eq _ _ (precisionRef_nonneg _ _) (recallRef_nonneg _ _)]

theorem scoresPrecision_eq (P A : Finset β) :
    scoresPrecision ((A ∩ P).card : ℚ) ((P \ A).card : ℚ) = precisionRef P A := by
  unfold scoresPrecision precisionRef
  have htp : ((A ∩ P).card : ℚ) = ((P ∩ A).card : ℚ) := by rw [Finset.inter_comm]
  have hsum : ((A ∩ P).card : ℚ) + ((P \ A).card : ℚ) = (P.card : ℚ) := by
    rw [Finset.inter_comm]
    exact_mod_cast Finset.card_inter_add_card_sdiff P A
  rw [hsum, htp]
  by_cases h : 0 < P.card
  · rw [if_pos (by exact_mod_cast h), if_pos h]
  · rw [if_neg (by exact_mod_cast h), if_neg h]

theorem scoresRecall_eq (P A : Finset β) :
    scoresRecall ((A ∩ P).card : ℚ) ((A \ P).card : ℚ) = recallRef P A := by
  unfold scoresRecall recallRef
  have htp : ((A ∩ P).card : ℚ) = ((P ∩ A).card : ℚ) := by rw [Finset.inter_comm]
  have hsum : ((A ∩ P).card : ℚ) + ((A \ P).card : ℚ) = (A.card : ℚ) := by
    exact_mod_cast Finset.card_inter_add_card_sdiff A P
  rw [hsum, htp]
  by_cases h : 0 < A.card
  · rw [if_pos (by exact_mod_cast h), if_pos h]
  · rw [if_neg (by exact_mod_cast h), if_neg h]

theorem scoresF1_eq (p r : ℚ) : scoresF1 p r = f1Ref p r := by
  unfold scoresF1 f1Ref
  by_cases h : 0 < p + r
  · rw [if_pos h, if_pos h]
    ring_nf
  · rw [if_neg h, if_neg h]

theorem calculate_scores_eq_refScore (predicted actual : List β) :
    calculate_scores actual predicted = refScore predicted.toFinset actual.toFinset := by
  unfold calculate_scores refScore
  by_cases h : predicted.toFinset = ∅ ∧ actual.toFinset = ∅
  · rw [if_pos ⟨h.2, h.1⟩, if_pos h]
  · rw [if_neg (fun hc => h ⟨hc.2, hc.1⟩), if_neg h, scoresPrecision_eq, scoresRecall_eq,
      scoresF1_eq]

theorem modernRecall_eq (P A : Finset β) (h : ¬(P = ∅ ∧ A = ∅)) :
    modernRecall P A = recallRef P A := by
  unfold modernRecall recallRef
  by_cases hA : A.card = 0
  · have hA' : A = ∅ := Finset.card_eq_zero.mp hA
    have hP : ¬ P = ∅ := fun hc => h ⟨hc, hA'⟩
    rw [if_pos hA, if_neg hP, if_neg (by omega)]
  · rw [if_neg hA, if_pos (Nat.pos_of_ne_zero hA)]

theorem modernF1_eq (p r : ℚ) (hp : 0 ≤ p) (hr : 0 ≤ r) : modernF1 p r = f1Ref p r := by
  unfold modernF1 f1Ref
  by_cases h : p + r = 0
  · rw [if_pos h, if_neg (by rw [h]; exact lt_irrefl 0)]
  · have hlt : 0 < p + r := lt_of_le_of_ne (by linarith) (Ne.symm h)
    rw [if_neg h, if_pos hlt]
    ring_nf

theorem modernPrecision_eq (P A : Finset β) : modernPrecision P A = precisionRef P A := rfl

theorem calculate_metrics_modern_eq_refScore (predicted actual : List β) :
    calculate_metrics_modern predicted actual = refScore predicted.toFinset actual.toFinset := by
  unfold calculate_metrics_modern refScore
  by_cases h : predicted.toFinset = ∅ ∧ actual.toFinset = ∅
  · rw [if_pos h, if_pos h]
  · rw [if_neg h, if_neg h, modernPrecision_eq, modernRecall_eq _ _ h,
      modernF1_eq _ _ (precisionRef_nonneg _ _) (recallRef_nonneg _ _)]

/-- C2: all scoring variants compute the reference formula of the spec:
`(1,1,1)` when both sets are empty, otherwise `precision = TP/|predicted|`
(or `0` when `predicted` is empty), `recall = TP/|actual|` (or `0` when
`actual` is empty), and `f1 = 2·p·r/(p+r)` (or `0` when `p+r = 0`). -/
theorem C2_scoring_matches_reference (predicted actual : List β) :
    refScore (∅ : Finset β) (∅ : Finset β) = ⟨1, 1, 1⟩ ∧
    calculate_metrics (some predicted) actual = refScore predicted.toFinset actual.toFinset ∧
    calculate_scores actual predicted = refScore predicted.toFinset actual.toFinset ∧
    calculate_metrics_modern predicted actual = refScore predicted.toFinset actual.toFinset :=
  ⟨rfl, calculate_metrics_eq_refScore predicted actual,
    calculate_scores_eq_refScore predicted actual,
    calculate_metrics_modern_eq_refScore predicted actual⟩

theorem refScore_bounds (P A : Finset β) :
    (0 ≤ (refScore P A).precision ∧ (refScore P A).precision ≤ 1) ∧
    (0 ≤ (refScore P A).recall' ∧ (refScore P A).recall' ≤ 1) ∧
    (0 ≤ (refScore P A).f1 ∧ (refScore P A).f1 ≤ 1) := by
  unfold refScore
  by_cases h : P = ∅ ∧ A = ∅
  · rw [if_pos h]
    norm_num
  · rw [if_neg h]
    have hp0 : 0 ≤ precisionRef P A := precisionRef_nonneg P A
    have hr0 : 0 ≤ recallRef P A := recallRef_nonneg P A
    have hp1 : precisionRef P A ≤ 1 := by
      unfold precisionRef
      split_ifs with hc
      · apply div_le_one_of_le₀
        · exact_mod_cast Finset.card_le_card Finset.inter_subset_left
        · positivity
      · norm_num
    have hr1 : recallRef P A ≤ 1 := by
      unfold recallRef
      split_ifs with hc
      · apply div_le_one_of_le₀
        · exact_mod_cast Finset.card_le_card Finset.inter_subset_right
        · positivity
      · norm_num
    refine ⟨⟨hp0, hp1⟩, ⟨hr0, hr1⟩, ?_, ?_⟩
    · unfold f1Ref
      split_ifs with hc
      · apply div_nonneg _ (le_of_lt hc)
        nlinarith
      · exact le_refl 0
    · unfold f1Ref
      split_ifs with hc
      · rw [div_le_one hc]
        nlinarith
      · norm_num

/-- C8: every value returned by the scoring function lies in `[0, 1]`. -/
theorem C8_calculate_metrics_bounds (predicted_nodes : Option (List β)) (true_nodes : List β) :
    (0 ≤ (calculate_metrics predicted_nodes true_nodes).precision ∧
      (calculate_metrics predicted_nodes true_nodes).precision ≤ 1) ∧
    (0 ≤ (calculate_metrics predicted_nodes true_nodes).recall' ∧
      (calculate_metrics predicted_nodes true_nodes).recall' ≤ 1) ∧
    (0 ≤ (calculate_metrics predicted_nodes true_nodes).f1 ∧
      (calculate_metrics predicted_nodes true_nodes).f1 ≤ 1) := by
  have heq : calculate_metrics predicted_nodes true_nodes =
      refScore (predicted_nodes.getD []).toFinset true_nodes.toFinset := by
    cases predicted_nodes with
    | none => exact calculate_metrics_eq_refScore [] true_nodes
    | some l => exact calculate_metrics_eq_refScore l true_nodes
  rw [heq]
  exact refScore_bounds _ _

/-! ## Aggregation (`classic_metrics.py` main, `general_metrics_classic.py`)

Per-stratum running sums of precision/recall/f1 plus a count, folded one
record at a time; per-stratum averages are sum/count, and the overall
stratum merges the per-stratum sums over the total count. -/

/-- Running totals for one stratum: sums of the three metrics and a count. -/
structure Totals where
  precision : ℚ
  recall' : ℚ
  f1 : ℚ
  count : ℕ
deriving DecidableEq

/-- Fold one score record into the running totals
(`totals[stratum][...] += ...` in `classic_metrics.py` lines 93-96). -/
def addRecord (t : Totals) (sc : Scores) : Totals :=
  ⟨t.precision + sc.precision, t.recall' + sc.recall', t.f1 + sc.f1, t.count + 1⟩

/-- Accumulate all records of stratum `s`, in input order. -/
def accumulate (s : String) (records : List (String × Scores)) : Totals :=
  records.foldl (fun t r => if r.1 = s then addRecord t r.2 else t) ⟨0, 0, 0, 0⟩

theorem accumulate_from (s : String) (records : List (String × Scores)) :
    ∀ t : Totals,
      records.foldl (fun t r => if r.1 = s then addRecord t r.2 else t) t =
        ⟨t.precision + ((records.filter fun r => decide (r.1 = s)).map
            fun r => r.2.precision).sum,
         t.recall' + ((records.filter fun r => decide (r.1 = s)).map
            fun r => r.2.recall').sum,
         t.f1 + ((records.filter fun r => decide (r.1 = s)).map fun r => r.2.f1).sum,
         t.count + (records.filter fun r => decide (r.1 = s)).length⟩ := by
  induction records with
  | nil =>
    intro t
    cases t
    simp
  | cons r rest ih =>
    intro t
    by_cases h : r.1 = s
    · rw [List.foldl_cons, if_pos h, ih (addRecord t r.2)]
      simp only [List.filter_cons, h, addRecord, Totals.mk.injEq, decide_True,
        if_true, List.map_cons, List.sum_cons, List.length_cons]
      refine ⟨?_, ?_, ?_, ?_⟩ <;> ring
    · rw [List.foldl_cons, if_neg h, ih t]
      simp [List.filter_cons, h]

theorem accumulate_eq (s : String) (records : List (String × Scores)) :
    accumulate s records =
      ⟨((records.filter fun r => decide (r.1 = s)).map fun r => r.2.precision).sum,
       ((records.filter fun r => decide (r.1 = s)).map fun r => r.2.recall').sum,
       ((records.filter fun r => decide (r.1 = s)).map fun r => r.2.f1).sum,
       (records.filter fun r => decide (r.1 = s)).length⟩ := by
  rw [accumulate, accumulate_from]
  simp

theorem accumulate_perm (s : String) {l₁ l₂ : List (String × Scores)}
    (h : l₁.Perm l₂) : accumulate s l₁ = accumulate s l₂ := by
  rw [accumulate_eq, accumulate_eq]
  have hf := h.filter (fun r => decide (r.1 = s))
  rw [Totals.mk.injEq]
  exact ⟨(hf.map fun r => r.2.precision).sum_eq, (hf.map fun r => r.2.recall').sum_eq,
    (hf.map fun r => r.2.f1).sum_eq, hf.length_eq⟩

/-- Per-stratum averages (`classic_metrics.py` lines 111-119): sums divided
by the count, or an all-zero row when the stratum is empty. -/
def stratumAverage (records : List (String × Scores)) (s : String) : ℚ × ℚ × ℚ × ℕ :=
  if (accumulate s records).count = 0 then (0, 0, 0, 0)
  else ((accumulate s records).precision / (accumulate s records).count,
        (accumulate s records).recall' / (accumulate s records).count,
        (accumulate s records).f1 / (accumulate s records).count,
        (accumulate s records).count)

/-- The overall totals (`classic_metrics.py` lines 120-123): the sums of the
`bfs` and `parents` strata, where a stratum contributes only when its count
is positive (an empty stratum has zero sums, so this filter is inert). -/
def overallTotals (records : List (String × Scores)) : Totals :=
  (["bfs", "parents"].map fun s => accumulate s records).foldl
    (fun acc t => if t.count = 0 then acc else
      ⟨acc.precision + t.precision, acc.recall' + t.recall', acc.f1 + t.f1,
       acc.count + t.count⟩)
    ⟨0, 0, 0, 0⟩

/-- The overall (`GERAL`) averages (`classic_metrics.py` lines 133-139). -/
def overallAverage (records : List (String × Scores)) : ℚ × ℚ × ℚ × ℕ :=
  if (overallTotals records).count = 0 then (0, 0, 0, 0)
  else ((overallTotals records).precision / (overallTotals records).count,
        (overallTotals records).recall' / (overallTotals records).count,
        (overallTotals records).f1 / (overallTotals records).count,
        (overallTotals records).count)

/-- C9: aggregation is permutation-invariant over exact rationals: any
reordering of the (stratum, score) records — in particular any interleaving
of incremental/streaming versus single-batch processing — yields the same
per-stratum and overall averages. -/
theorem C9_aggregation_perm_invariant (l₁ l₂ : List (String × Scores))
    (h : l₁.Perm l₂) :
    (∀ s, stratumAverage l₁ s = stratumAverage l₂ s) ∧
    overallAverage l₁ = overallAverage l₂ := by
  have hacc : ∀ s, accumulate s l₁ = accumulate s l₂ := fun s => accumulate_perm s h
  have hover : overallTotals l₁ = overallTotals l₂ := by
    unfold overallTotals
    simp only [hacc]
  constructor
  · intro s
    unfold stratumAverage
    rw [hacc]
  · unfold overallAverage
    rw [hover]

/-- Witness for C9 on two permuted three-record lists. -/
theorem C9_aggregation_perm_invariant_witness :
    ([("bfs", (⟨1, 1, 1⟩ : Scores)), ("parents", ⟨0, 1, 0⟩), ("bfs", ⟨1, 0, 0⟩)] :
        List (String × Scores)).Perm
      [("bfs", ⟨1, 0, 0⟩), ("bfs", ⟨1, 1, 1⟩), ("parents", ⟨0, 1, 0⟩)] ∧
    stratumAverage [("bfs", ⟨1, 1, 1⟩), ("parents", ⟨0, 1, 0⟩), ("bfs", ⟨1, 0, 0⟩)] "bfs" =
      stratumAverage [("bfs", ⟨1, 0, 0⟩), ("bfs", ⟨1, 1, 1⟩), ("parents", ⟨0, 1, 0⟩)] "bfs" ∧
    overallAverage [("bfs", ⟨1, 1, 1⟩), ("parents", ⟨0, 1, 0⟩), ("bfs", ⟨1, 0, 0⟩)] =
      overallAverage [("bfs", ⟨1, 0, 0⟩), ("bfs", ⟨1, 1, 1⟩), ("parents", ⟨0, 1, 0⟩)] := by
  have h := C9_aggregation_perm_invariant
    [("bfs", ⟨1, 1, 1⟩), ("parents", ⟨0, 1, 0⟩), ("bfs", ⟨1, 0, 0⟩)]
    [("bfs", ⟨1, 0, 0⟩), ("bfs", ⟨1, 1, 1⟩), ("parents", ⟨0, 1, 0⟩)]
    (by decide)
  exact ⟨by decide, h.1 "bfs", h.2⟩

/-! ## Python string primitives on `List Char`

`str.split(sep)`, `str.strip()` and substring search, with Python's
leftmost, non-overlapping occurrence semantics. -/

/-- Python's whitespace characters (`str.strip()`, regex `\s`). -/
def pyIsSpace (c : Char) : Bool :=
  c = ' ' || c = '\t' || c = '\n' || c = '\r' || c = '\x0b' || c = '\x0c'

/-- Drop characters satisfying `p` from both ends. -/
def pyDropEnds (p : Char → Bool) (s : List Char) : List Char :=
  ((s.dropWhile p).reverse.dropWhile p).reverse

/-- Python `str.strip()`. -/
def pyStrip (s : List Char) : List Char := pyDropEnds pyIsSpace s

/-- Python `str.strip(cs)` for a set `cs` of characters. -/
def pyStripChars (cs : List Char) (s : List Char) : List Char :=
  pyDropEnds (fun c => cs.contains c) s

/-- Boolean test: `p` occurs at the head of `s`. -/
def strPre : List Char → List Char → Bool
  | [], _ => true
  | _ :: _, [] => false
  | a :: as, b :: bs => a == b && strPre as bs

theorem strPre_iff (p : List Char) : ∀ s, strPre p s = true ↔ ∃ t, s = p ++ t := by
  induction p with
  | nil =>
    intro s
    constructor
    · intro _
      exact ⟨s, rfl⟩
    · intro _
      rfl
  | cons a as ih =>
    intro s
    cases s with
    | nil =>
      simp [strPre]
    | cons b bs =>
      simp only [strPre, Bool.and_eq_true, beq_iff_eq, ih]
      constructor
      · rintro ⟨rfl, t, rfl⟩
        exact ⟨t, rfl⟩
      · rintro ⟨t, ht⟩
        injection ht with h1 h2
        exact ⟨h1.symm, t, h2⟩

/-- Split `s` at the leftmost occurrence of `sep`: `some (pre, post)` with
`s = pre ++ sep ++ post` and `pre` shortest possible, else `none`. -/
def breakOnSep (sep : List Char) : List Char → Option (List Char × List Char)
  | [] => none
  | c :: rest =>
      if strPre sep (c :: rest) = true then some ([], (c :: rest).drop sep.length)
      else
        match breakOnSep sep rest with
        | none => none
        | some (pre, post) => some (c :: pre, post)

theorem breakOnSep_some {sep : List Char} :
    ∀ {s pre post : List Char}, breakOnSep sep s = some (pre, post) →
      s = pre ++ sep ++ post ∧ ∀ x y, s = x ++ sep ++ y → pre.length ≤ x.length := by
  intro s
  induction s with
  | nil =>
    intro pre post h
    simp [breakOnSep] at h
  | cons c rest ih =>
    intro pre post h
    rw [breakOnSep] at h
    by_cases hp : strPre sep (c :: rest) = true
    · rw [if_pos hp] at h
      simp only [Option.some.injEq, Prod.mk.injEq] at h
      obtain ⟨h1, h2⟩ := h
      subst h1
      subst h2
      obtain ⟨t, ht⟩ := (strPre_iff sep (c :: rest)).mp hp
      constructor
      · rw [ht, List.drop_left, List.nil_append]
      · intro x y hxy
        simp
    · rw [if_neg hp] at h
      cases hbr : breakOnSep sep rest with
      | none =>
        rw [hbr] at h
        cases h
      | some pr =>
        obtain ⟨pre', post'⟩ := pr
        rw [hbr] at h
        simp only [Option.some.injEq, Prod.mk.injEq] at h
        obtain ⟨h1, h2⟩ := h
        subst h1
        subst h2
        obtain ⟨hdec, hmin⟩ := ih hbr
        constructor
        · show c :: rest = c :: (pre' ++ sep ++ post')
          rw [hdec]
        · intro x y hxy
          cases x with
          | nil =>
            exact absurd ((strPre_iff sep (c :: rest)).mpr ⟨y, by simpa using hxy⟩) hp
          | cons d xs =>
            injection hxy with hcd hrest
            simpa using Nat.succ_le_succ (hmin xs y hrest)

theorem breakOnSep_none {sep : List Char} (hsep : ¬ sep = []) :
    ∀ {s : List Char}, breakOnSep sep s = none → ¬ ∃ x y, s = x ++ sep ++ y := by
  intro s
  induction s with
  | nil =>
    rintro - ⟨x, y, hxy⟩
    have hl := congrArg List.length hxy
    simp only [List.length_nil, List.length_append] at hl
    exact hsep (List.length_eq_zero.mp (by omega))
  | cons c rest ih =>
    intro h
    rw [breakOnSep] at h
    by_cases hp : strPre sep (c :: rest) = true
    · rw [if_pos hp] at h
      cases h
    · rw [if_neg hp] at h
      rintro ⟨x, y, hxy⟩
      cases x with
      | nil =>
        exact hp ((strPre_iff sep (c :: rest)).mpr ⟨y, by simpa using hxy⟩)
      | cons d xs =>
        injection hxy with hcd hrest
        cases hbr : breakOnSep sep rest with
        | none => exact ih hbr ⟨xs, y, hrest⟩
        | some pr =>
          obtain ⟨pre, post⟩ := pr
          rw [hbr] at h
          simp at h

/-- Python `str.split(sep)` for a non-empty separator: cut at every
leftmost, non-overlapping occurrence of `sep`. -/
def pySplit (sep : List Char) (s : List Char) : List (List Char) :=
  if hsep : sep = [] then [s]
  else
    match hbr : breakOnSep sep s with
    | none => [s]
    | some (pre, post) => pre :: pySplit sep post
termination_by s.length
decreasing_by
  have hd := (breakOnSep_some hbr).1
  rw [hd]
  simp only [List.length_append]
  have hpos : 0 < sep.length := List.length_pos.mpr hsep
  omega

/-- Python's `str.count(sep)`: the number of leftmost, non-overlapping
occurrences of `sep`. -/
def countOcc (sep : List Char) (s : List Char) : ℕ :=
  if hsep : sep = [] then 0
  else
    match hbr : breakOnSep sep s with
    | none => 0
    | some (_, post) => 1 + countOcc sep post
termination_by s.length
decreasing_by
  have hd := (breakOnSep_some hbr).1
  rw [hd]
  simp only [List.length_append]
  have hpos : 0 < sep.length := List.length_pos.mpr hsep
  omega

theorem pySplit_of_none {sep s : List Char} (hsep : ¬ sep = [])
    (h : breakOnSep sep s = none) : pySplit sep s = [s] := by
  rw [pySplit.eq_def, dif_neg hsep]
  split
  next => rfl
  next pre post heq =>
    rw [h] at heq
    cases heq

theorem pySplit_of_some {sep s pre post : List Char} (hsep : ¬ sep = [])
    (h : breakOnSep sep s = some (pre, post)) :
    pySplit sep s = pre :: pySplit sep post := by
  conv_lhs => rw [pySplit.eq_def]
  rw [dif_neg hsep]
  split
  next heq =>
    rw [h] at heq
    cases heq
  next pre' post' heq =>
    rw [h] at heq
    simp only [Option.some.injEq, Prod.mk.injEq] at heq
    obtain ⟨h1, h2⟩ := heq
    rw [h1, h2]

theorem countOcc_of_none {sep s : List Char} (hsep : ¬ sep = [])
    (h : breakOnSep sep s = none) : countOcc sep s = 0 := by
  rw [countOcc.eq_def, dif_neg hsep]
  split
  next => rfl
  next pre post heq =>
    rw [h] at heq
    cases heq

theorem countOcc_of_some {sep s pre post : List Char} (hsep : ¬ sep = [])
    (h : breakOnSep sep s = some (pre, post)) :
    countOcc sep s = 1 + countOcc sep post := by
  conv_lhs => rw [countOcc.eq_def]
  rw [dif_neg hsep]
  split
  next heq =>
    rw [h] at heq
    cases heq
  next pre' post' heq =>
    rw [h] at heq
    simp only [Option.some.injEq, Prod.mk.injEq] at heq
    rw [heq.2]

theorem pySplit_ne_nil (sep s : List Char) : pySplit sep s ≠ [] := by
  rw [pySplit.eq_def]
  by_cases hsep : sep = []
  · rw [dif_pos hsep]
    simp
  · rw [dif_neg hsep]
    split <;> simp

/-- The leftmost decomposition determines the result of `breakOnSep`. -/
theorem breakOnSep_eq_of_leftmost {sep : List Char} (hsep : ¬ sep = [])
    {s pre post : List Char} (h1 : s = pre ++ sep ++ post)
    (h2 : ∀ x y, s = x ++ sep ++ y → pre.length ≤ x.length) :
    breakOnSep sep s = some (pre, post) := by
  cases hbr : breakOnSep sep s with
  | none => exact absurd ⟨pre, post, h1⟩ (breakOnSep_none hsep hbr)
  | some pr =>
    obtain ⟨pre', post'⟩ := pr
    obtain ⟨hdec, hmin⟩ := breakOnSep_some hbr
    have hlen : pre.length = pre'.length :=
      le_antisymm (h2 pre' post' hdec) (hmin pre post h1)
    have heq : pre ++ (sep ++ post) = pre' ++ (sep ++ post') := by
      rw [← List.append_assoc, ← List.append_assoc, ← h1, ← hdec]
    obtain ⟨hpp, hrest⟩ := List.append_inj heq hlen
    subst hpp
    rw [List.append_cancel_left hrest]

/-! ## Graph construction from text (C4)

`executar_operacao_do_prompt` in `classic_technique.py` and
`parse_graph_to_prolog` in `classic_prolog.py`. -/

/-- The separator `" -> "` of `classic_technique.py`. -/
def sepSpace : List Char := [' ', '-', '>', ' ']

/-- The separator `"->"` of `classic_prolog.py`. -/
def sepArrow : List Char := ['-', '>']

/-- The line separator `"\n"`. -/
def sepNewline : List Char := ['\n']

/-- One line of the graph-construction loop in `executar_operacao_do_prompt`
(`classic_technique.py` lines 60-62): `if ' -> ' in line:` then
`source, dest = map(str.strip, line.split(' -> '))` and
`graph[source].append(dest)`.  A line whose split has exactly two parts adds
an edge; a line with three or more parts makes the tuple unpacking raise a
`ValueError` that no `except` clause catches (only `IndexError` is caught),
modelled as `Except.error`; a line without the separator (a one-part split)
is skipped. -/
def addLineClassic (g : Graph (List Char)) (line : List Char) :
    Except Unit (Graph (List Char)) :=
  match pySplit sepSpace line with
  | [a, b] => .ok (addEdge g (pyStrip a) (pyStrip b))
  | [_] => .ok g
  | [] => .ok g
  | _ => .error ()

/-- The graph-construction loop of `executar_operacao_do_prompt` over the
lines of the graph section, propagating the uncaught `ValueError`. -/
def buildGraphClassic (g : Graph (List Char)) :
    List (List Char) → Except Unit (Graph (List Char))
  | [] => .ok g
  | l :: ls =>
      match addLineClassic g l with
      | .ok g' => buildGraphClassic g' ls
      | .error e => .error e

/-- `executar_operacao_do_prompt`'s whole graph construction:
`graph_section.strip().split('\n')` then the line loop. -/
def buildGraphClassicText (text : List Char) : Except Unit (Graph (List Char)) :=
  buildGraphClassic [] (pySplit sepNewline (pyStrip text))

/-- One line of `parse_graph_to_prolog` (`classic_prolog.py` lines 12-19):
`if '->' in line:` then `parts = line.split('->')`, take `parts[0]` and
`parts[1]` (any further parts are ignored), strip them, and append the fact
when not already present.  The Prolog fact string `points_to('u', 'v')` is
modelled as the pair `(u, v)`. -/
def addLineProlog (facts : List (List Char × List Char)) (line : List Char) :
    List (List Char × List Char) :=
  match pySplit sepArrow line with
  | p0 :: p1 :: _ =>
      if (pyStrip p0, pyStrip p1) ∈ facts then facts
      else facts ++ [(pyStrip p0, pyStrip p1)]
  | _ => facts

/-- `parse_graph_to_prolog(graph_string)` over the list of lines. -/
def parse_graph_to_prolog (lines : List (List Char)) : List (List Char × List Char) :=
  lines.foldl addLineProlog []

/-- `parse_graph_to_prolog` on the raw text: `graph_string.strip().split('\n')`
then the line loop. -/
def parse_graph_to_prolog_text (text : List Char) : List (List Char × List Char) :=
  parse_graph_to_prolog (pySplit sepNewline (pyStrip text))

/-- C4 (amended): per line, the classic builder skips a line without the
`" -> "` separator, adds one edge of trimmed tokens for a line with exactly
one occurrence, but raises an uncaught `ValueError` (modelled `.error`) for
a line with two or more occurrences; the Prolog builder never fails: it
skips a line without `"->"` and otherwise adds the deduplicated fact built
from the first two split parts, ignoring any further parts. -/
theorem C4_graph_builder_amended (g : Graph (List Char))
    (facts : List (List Char × List Char)) (line : List Char) :
    ((¬ ∃ x y, line = x ++ sepSpace ++ y) → addLineClassic g line = .ok g) ∧
    (∀ pre post, line = pre ++ sepSpace ++ post →
      (∀ x y, line = x ++ sepSpace ++ y → pre.length ≤ x.length) →
      (¬ ∃ x y, post = x ++ sepSpace ++ y) →
      addLineClassic g line = .ok (addEdge g (pyStrip pre) (pyStrip post))) ∧
    (∀ x y z, line = x ++ sepSpace ++ y ++ sepSpace ++ z →
      addLineClassic g line = .error ()) ∧
    ((¬ ∃ x y, line = x ++ sepArrow ++ y) → addLineProlog facts line = facts) ∧
    (∀ pre post, line = pre ++ sepArrow ++ post →
      (∀ x y, line = x ++ sepArrow ++ y → pre.length ≤ x.length) →
      ((¬ ∃ x y, post = x ++ sepArrow ++ y) →
        addLineProlog facts line =
          (if (pyStrip pre, pyStrip post) ∈ facts then facts
           else facts ++ [(pyStrip pre, pyStrip post)])) ∧
      (∀ pre2 post2, post = pre2 ++ sepArrow ++ post2 →
        (∀ x y, post = x ++ sepArrow ++ y → pre2.length ≤ x.length) →
        addLineProlog facts line =
          (if (pyStrip pre, pyStrip pre2) ∈ facts then facts
           else facts ++ [(pyStrip pre, pyStrip pre2)]))) := by
  have hs : ¬ sepSpace = [] := by decide
  have ha : ¬ sepArrow = [] := by decide
  refine ⟨?_, ?_, ?_, ?_, ?_⟩
  · -- no separator: skipped
    intro hno
    have hnone : breakOnSep sepSpace line = none := by
      cases hbr : breakOnSep sepSpace line with
      | none => rfl
      | some pr =>
        obtain ⟨a, b⟩ := pr
        exact absurd ⟨a, b, (breakOnSep_some hbr).1⟩ hno
    unfold addLineClassic
    rw [pySplit_of_none hs hnone]
  · -- exactly one separator: one edge of trimmed tokens
    intro pre post h1 h2 h3
    have hmain : breakOnSep sepSpace line = some (pre, post) :=
      breakOnSep_eq_of_leftmost hs h1 h2
    have hpost : breakOnSep sepSpace post = none := by
      cases hbr : breakOnSep sepSpace post with
      | none => rfl
      | some pr =>
        obtain ⟨a, b⟩ := pr
        exact absurd ⟨a, b, (breakOnSep_some hbr).1⟩ h3
    unfold addLineClassic
    rw [pySplit_of_some hs hmain, pySplit_of_none hs hpost]
  · -- at least two separators: uncaught ValueError
    intro x y z h
    have hx : line = x ++ sepSpace ++ (y ++ sepSpace ++ z) := by
      rw [h]
      simp [List.append_assoc]
    obtain ⟨pre0, post0, hbr⟩ :
        ∃ pre0 post0, breakOnSep sepSpace line = some (pre0, post0) := by
      cases hbr : breakOnSep sepSpace line with
      | none => exact absurd ⟨x, _, hx⟩ (breakOnSep_none hs hbr)
      | some pr =>
        obtain ⟨a, b⟩ := pr
        exact ⟨a, b, rfl⟩
    obtain ⟨hdec, hmin⟩ := breakOnSep_some hbr
    have hminx : pre0.length ≤ x.length := hmin x _ hx
    have heq : (pre0 ++ sepSpace) ++ post0 = (x ++ sepSpace ++ y) ++ (sepSpace ++ z) := by
      rw [← hdec, h]
      simp [List.append_assoc]
    have hpost0 : ∃ m, post0 = m ++ sepSpace ++ z := by
      rcases List.append_eq_append_iff.mp heq with ⟨m, hm1, hm2⟩ | ⟨m, hm1, hm2⟩
      · exact ⟨m, by rw [hm2, List.append_assoc]⟩
      · have hl1 := congrArg List.length hm1
        simp only [List.length_append] at hl1
        have hm0 : m = [] := List.length_eq_zero.mp (by omega)
        subst hm0
        exact ⟨[], by rw [List.nil_append, hm2, List.nil_append]⟩
    obtain ⟨pre1, post1, hbr2⟩ :
        ∃ pre1 post1, breakOnSep sepSpace post0 = some (pre1, post1) := by
      cases hbr2 : breakOnSep sepSpace post0 with
      | none =>
        obtain ⟨m, hm⟩ := hpost0
        exact absurd ⟨m, z, hm⟩ (breakOnSep_none hs hbr2)
      | some pr =>
        obtain ⟨a, b⟩ := pr
        exact ⟨a, b, rfl⟩
    unfold addLineClassic
    rw [pySplit_of_some hs hbr, pySplit_of_some hs hbr2]
    cases hq : pySplit sepSpace post1 with
    | nil => exact absurd hq (pySplit_ne_nil _ _)
    | cons q qs => rfl
  · -- prolog: no separator, line skipped
    intro hno
    have hnone : breakOnSep sepArrow line = none := by
      cases hbr : breakOnSep sepArrow line with
      | none => rfl
      | some pr =>
        obtain ⟨a, b⟩ := pr
        exact absurd ⟨a, b, (breakOnSep_some hbr).1⟩ hno
    unfold addLineProlog
    rw [pySplit_of_none ha hnone]
  · -- prolog: first two parts become the fact, extras ignored
    intro pre post h1 h2
    have hmain : breakOnSep sepArrow line = some (pre, post) :=
      breakOnSep_eq_of_leftmost ha h1 h2
    constructor
    · intro h3
      have hpost : breakOnSep sepArrow post = none := by
        cases hbr : breakOnSep sepArrow post with
        | none => rfl
        | some pr =>
          obtain ⟨a, b⟩ := pr
          exact absurd ⟨a, b, (breakOnSep_some hbr).1⟩ h3
      unfold addLineProlog
      rw [pySplit_of_some ha hmain, pySplit_of_none ha hpost]
    · intro pre2 post2 h3 h4
      have hsecond : breakOnSep sepArrow post = some (pre2, post2) :=
        breakOnSep_eq_of_leftmost ha h3 h4
      unfold addLineProlog
      rw [pySplit_of_some ha hmain, pySplit_of_some ha hsecond]

/-- Witness for C4 on the lines `"x"` (no separator), `"A -> B"` (one
separator) and `"A -> B -> C"` (two separators, which the classic builder
rejects while the Prolog builder turns into the fact `(A, B)`). -/
theorem C4_graph_builder_amended_witness :
    addLineClassic [] "x".toList = .ok [] ∧
    addLineClassic [] "A -> B".toList =
      .ok (addEdge [] (pyStrip "A".toList) (pyStrip "B".toList)) ∧
    addLineClassic [] "A -> B -> C".toList = .error () ∧
    addLineProlog [] "A -> B".toList = [(pyStrip "A".toList, pyStrip "B".toList)] := by
  have hs : ¬ sepSpace = [] := by decide
  have ha : ¬ sepArrow = [] := by decide
  have hb2 : breakOnSep sepSpace "A -> B".toList = some ("A".toList, "B".toList) := by
    decide
  have hb3 : breakOnSep sepArrow "A -> B".toList = some ("A ".toList, " B".toList) := by
    decide
  have h1 := (C4_graph_builder_amended [] [] "x".toList).1
    (breakOnSep_none hs (by decide))
  have h2 := (C4_graph_builder_amended [] [] "A -> B".toList).2.1 "A".toList "B".toList
    (by decide) (breakOnSep_some hb2).2
    (breakOnSep_none hs (by decide))
  have h3 := (C4_graph_builder_amended [] [] "A -> B -> C".toList).2.2.1
    "A".toList "B".toList "C".toList (by decide)
  have h4 := ((C4_graph_builder_amended [] [] "A -> B".toList).2.2.2.2 "A ".toList
    " B".toList (by decide) (breakOnSep_some hb3).2).1
    (breakOnSep_none ha (by decide))
  exact ⟨h1, h2, h3, by rw [h4]; decide⟩

/-- C4 counterexample: on the single-line text `A -> B -> C` (two separator
occurrences) the classic graph construction fails with an uncaught
`ValueError` instead of skipping the line, and the Prolog builder adds the
edge `(A, B)` from the first two tokens instead of skipping the line. -/
theorem C4_counterexample :
    buildGraphClassicText "A -> B -> C".toList = .error () ∧
    parse_graph_to_prolog_text "A -> B -> C".toList = [("A".toList, "B".toList)] := by
  have hs : ¬ sepSpace = [] := by decide
  have ha : ¬ sepArrow = [] := by decide
  have hn : ¬ sepNewline = [] := by decide
  have h0 : pyStrip "A -> B -> C".toList = "A -> B -> C".toList := by decide
  have h1 : pySplit sepNewline "A -> B -> C".toList = ["A -> B -> C".toList] :=
    pySplit_of_none hn (by decide)
  have h2 : pySplit sepSpace "A -> B -> C".toList =
      "A".toList :: pySplit sepSpace "B -> C".toList :=
    pySplit_of_some hs (by decide)
  have h3 : pySplit sepSpace "B -> C".toList =
      "B".toList :: pySplit sepSpace "C".toList :=
    pySplit_of_some hs (by decide)
  have h4 : pySplit sepSpace "C".toList = ["C".toList] :=
    pySplit_of_none hs (by decide)
  have h5 : addLineClassic [] "A -> B -> C".toList = .error () := by
    unfold addLineClassic
    rw [h2, h3, h4]
  have h6 : pySplit sepArrow "A -> B -> C".toList =
      "A ".toList :: pySplit sepArrow " B -> C".toList :=
    pySplit_of_some ha (by decide)
  have h7 : pySplit sepArrow " B -> C".toList =
      " B ".toList :: pySplit sepArrow " C".toList :=
    pySplit_of_some ha (by decide)
  have h8 : pySplit sepArrow " C".toList = [" C".toList] :=
    pySplit_of_none ha (by decide)
  have h9 : addLineProlog [] "A -> B -> C".toList = [("A".toList, "B".toList)] := by
    unfold addLineProlog
    rw [h6, h7, h8]
    decide
  constructor
  · unfold buildGraphClassicText
    rw [h0, h1]
    show (match addLineClassic [] "A -> B -> C".toList with
      | .ok g' => buildGraphClassic g' []
      | .error e => .error e) = .error ()
    rw [h5]
  · unfold parse_graph_to_prolog_text
    rw [h0, h1]
    show addLineProlog [] "A -> B -> C".toList = _
    rw [h9]

/-! ## Answer extraction (C7)

`parse_output` from `modern_metrics.py` (regex
`Final Answer:\s*\[(.*?)\]`, case-insensitive, dot-matches-newline) and
`extract_prediction_from_prompt` from `calculate_metrics.py` (regex
`"prediction":\s*(\[.*?\])` plus `json.loads`). -/

/-- The lowercased literal part of the `Final Answer:` pattern. -/
def finalAnswerKey : List Char := "final answer:".toList

/-- Attempt the `Final Answer:\s*\[(.*?)\]` match at the head of `s`
(case-insensitive literal, then whitespace, then a bracketed group whose
content runs to the first `]`, which must exist somewhere to the right). -/
def matchFA (s : List Char) : Option (List Char) :=
  if strPre finalAnswerKey ((s.take finalAnswerKey.length).map Char.toLower) = true then
    match (s.drop finalAnswerKey.length).dropWhile pyIsSpace with
    | c :: t =>
        if c = '[' then
          match t.span (fun ch => decide (ch ≠ ']')) with
          | (mid, d :: _) => if d = ']' then some mid else none
          | (_, []) => none
        else none
    | [] => none
  else none

/-- `re.search`: try the match at every position, leftmost first. -/
def searchFA : List Char → Option (List Char)
  | [] => none
  | c :: rest =>
      match matchFA (c :: rest) with
      | some r => some r
      | none => searchFA rest

/-- The quote characters stripped from each node (`node.strip("'\"")`). -/
def quoteChars : List Char := ['\'', '"']

/-- `parse_output(output_str)` from `modern_metrics.py`: `([], False)` when
the pattern is absent, `([], True)` for an empty bracket content, otherwise
the comma-split, stripped, unquoted node names with `True`. -/
def parse_output (s : List Char) : List (List Char) × Bool :=
  match searchFA s with
  | none => ([], false)
  | some content =>
      if pyStrip content = [] then ([], true)
      else (((pySplit [','] (pyStrip content)).map
        fun n => pyStripChars quoteChars (pyStrip n)), true)

/-- Declarative match-at-head predicate for the `Final Answer` pattern:
a case-insensitive copy of the literal, then whitespace, then `[`, then any
content followed by a `]`. -/
def matchHeadFA (s : List Char) : Prop :=
  ∃ fa ws mid post, s = fa ++ ws ++ '[' :: (mid ++ ']' :: post) ∧
    fa.map Char.toLower = finalAnswerKey ∧ ∀ c ∈ ws, pyIsSpace c = true

/-- Declarative presence of the `Final Answer: [...]` pattern anywhere in
`s`. -/
def hasFinalAnswer (s : List Char) : Prop :=
  ∃ pre t, s = pre ++ t ∧ matchHeadFA t

theorem dropWhile_ne_of_mem {k : Char} :
    ∀ {l : List Char}, k ∈ l →
      ∃ r, l.dropWhile (fun c => decide (c ≠ k)) = k :: r := by
  intro l
  induction l with
  | nil => intro h; cases h
  | cons c cs ih =>
    intro h
    by_cases hc : c = k
    · subst hc
      exact ⟨cs, by simp [List.dropWhile]⟩
    · have hk : k ∈ cs := by
        rcases List.mem_cons.mp h with h' | h'
        · exact absurd h'.symm hc
        · exact h'
      obtain ⟨r, hr⟩ := ih hk
      refine ⟨r, ?_⟩
      rw [List.dropWhile_cons_of_pos (by simpa using hc), hr]

theorem matchFA_isSome_iff (s : List Char) :
    (matchFA s).isSome = true ↔ matchHeadFA s := by
  constructor
  · intro h
    unfold matchFA at h
    by_cases hp : strPre finalAnswerKey
        ((s.take finalAnswerKey.length).map Char.toLower) = true
    swap
    · rw [if_neg hp] at h
      simp at h
    rw [if_pos hp] at h
    split at h
    swap
    · simp at h
    next c t heqdw =>
    split at h
    swap
    · simp at h
    next hc =>
    subst hc
    split at h
    swap
    · simp at h
    next mid d rest2 heqsp =>
    split at h
    swap
    · simp at h
    next hd =>
    subst hd
    -- extract the head literal
    obtain ⟨t', ht'⟩ := (strPre_iff _ _).mp hp
    have hlen : t' = [] := by
      have h1 := congrArg List.length ht'
      simp only [List.length_map, List.length_take, List.length_append] at h1
      exact List.length_eq_zero.mp (by omega)
    subst hlen
    rw [List.append_nil] at ht'
    have e2 : s.drop finalAnswerKey.length =
        ((s.drop finalAnswerKey.length).takeWhile pyIsSpace) ++ '[' :: t := by
      conv_lhs => rw [← List.takeWhile_append_dropWhile (p := pyIsSpace)
        (l := s.drop finalAnswerKey.length)]
      rw [heqdw]
    have e3 : t = mid ++ ']' :: rest2 := by
      have hsp : t.span (fun c => decide (c ≠ ']')) =
          (t.takeWhile (fun c => decide (c ≠ ']')),
           t.dropWhile (fun c => decide (c ≠ ']'))) := List.span_eq_take_drop _ _
      rw [heqsp] at hsp
      have h1 : mid = t.takeWhile (fun c => decide (c ≠ ']')) :=
        congrArg Prod.fst hsp
      have h2 : ']' :: rest2 = t.dropWhile (fun c => decide (c ≠ ']')) :=
        congrArg Prod.snd hsp
      conv_lhs => rw [← List.takeWhile_append_dropWhile
        (p := fun c => decide (c ≠ ']')) (l := t)]
      rw [← h1, ← h2]
    refine ⟨s.take finalAnswerKey.length,
      (s.drop finalAnswerKey.length).takeWhile pyIsSpace, mid, rest2, ?_, ht', ?_⟩
    · rw [List.append_assoc, ← e3, ← e2, List.take_append_drop]
    · intro c hc
      exact List.mem_takeWhile_imp hc
  · rintro ⟨fa, ws, mid, post, hs, hfa, hws⟩
    have hfal : fa.length = finalAnswerKey.length := by
      rw [← hfa, List.length_map]
    have hs' : s = fa ++ (ws ++ '[' :: (mid ++ ']' :: post)) := by
      rw [hs, List.append_assoc]
    have htake : s.take finalAnswerKey.length = fa := by
      rw [hs', List.take_left' hfal]
    have hdrop : s.drop finalAnswerKey.length = ws ++ '[' :: (mid ++ ']' :: post) := by
      rw [hs', List.drop_left' hfal]
    have hdw : (s.drop finalAnswerKey.length).dropWhile pyIsSpace =
        '[' :: (mid ++ ']' :: post) := by
      rw [hdrop, List.dropWhile_append_of_pos hws]
      rw [List.dropWhile_cons_of_neg]
      decide
    obtain ⟨r, hr⟩ := dropWhile_ne_of_mem (k := ']')
      (l := mid ++ ']' :: post) (by simp)
    have hspan : (mid ++ ']' :: post).span (fun c => decide (c ≠ ']')) =
        ((mid ++ ']' :: post).takeWhile (fun c => decide (c ≠ ']')), ']' :: r) := by
      rw [List.span_eq_take_drop, hr]
    have hcond : strPre finalAnswerKey
        ((s.take finalAnswerKey.length).map Char.toLower) = true := by
      rw [htake, hfa]
      exact (strPre_iff _ _).mpr ⟨[], by simp⟩
    unfold matchFA
    rw [if_pos hcond]
    split
    next c t heq =>
      rw [hdw] at heq
      injection heq with h1 h2
      subst h1
      subst h2
      rw [if_pos rfl, hspan]
      split
      next mid2 d tail heq2 =>
        simp only [Prod.mk.injEq] at heq2
        obtain ⟨-, heq3⟩ := heq2
        injection heq3 with hd htail
        rw [if_pos hd.symm]
        rfl
      next heq2 =>
        simp only [Prod.mk.injEq] at heq2
        exact absurd heq2.2 (by simp)
    next heq =>
      rw [hdw] at heq
      cases heq

theorem hasFinalAnswer_cons (c : Char) (rest : List Char) :
    hasFinalAnswer (c :: rest) ↔ matchHeadFA (c :: rest) ∨ hasFinalAnswer rest := by
  constructor
  · rintro ⟨pre, t, heq, hm⟩
    cases pre with
    | nil =>
      rw [List.nil_append] at heq
      exact Or.inl (heq ▸ hm)
    | cons d pre' =>
      injection heq with h1 h2
      exact Or.inr ⟨pre', t, h2, hm⟩
  · rintro (h | ⟨pre, t, heq, hm⟩)
    · exact ⟨[], c :: rest, rfl, h⟩
    · exact ⟨c :: pre, t, by rw [heq]; rfl, hm⟩

theorem searchFA_isSome_iff (s : List Char) :
    (searchFA s).isSome = true ↔ hasFinalAnswer s := by
  induction s with
  | nil =>
    simp only [searchFA, Option.isSome_none, Bool.false_eq_true, false_iff]
    rintro ⟨pre, t, heq, fa, ws, mid, post, ht, hfa, -⟩
    have h1 := congrArg List.length heq
    have h2 := congrArg List.length ht
    have h3 := congrArg List.length hfa
    simp only [List.length_nil, List.length_append, List.length_cons,
      List.length_map] at h1 h2 h3
    have hk : finalAnswerKey.length = 13 := by decide
    omega
  | cons c rest ih =>
    rw [hasFinalAnswer_cons, ← ih, ← matchFA_isSome_iff]
    show (match matchFA (c :: rest) with
      | some r => some r
      | none => searchFA rest).isSome = true ↔ _
    cases hm : matchFA (c :: rest) with
    | some r => simp [hm]
    | none => simp [hm]

/-- The pattern of `extract_prediction_from_prompt`: the literal
`"prediction":` (case-sensitive, quotes included). -/
def predKey : List Char := "\"prediction\":".toList

/-- Attempt the `"prediction":\s*(\[.*?\])` match at the head of `s`; the
returned group includes the brackets, with content up to the first `]`. -/
def matchPred (s : List Char) : Option (List Char) :=
  if strPre predKey s = true then
    match (s.drop predKey.length).dropWhile pyIsSpace with
    | c :: t =>
        if c = '[' then
          match t.span (fun ch => decide (ch ≠ ']')) with
          | (mid, d :: _) => if d = ']' then some ('[' :: (mid ++ [']'])) else none
          | (_, []) => none
        else none
    | [] => none
  else none

/-- `re.search` for the prediction pattern, leftmost first. -/
def searchPred : List Char → Option (List Char)
  | [] => none
  | c :: rest =>
      match matchPred (c :: rest) with
      | some r => some r
      | none => searchPred rest

/-- A JSON string literal without escapes: `"` content `"`, returning the
content and the remaining input. -/
def parseStrLit : List Char → Option (List Char × List Char)
  | [] => none
  | c :: rest =>
      if c = '"' then
        match rest.span (fun ch => decide (ch ≠ '"')) with
        | (content, d :: after) => if d = '"' then some (content, after) else none
        | (_, []) => none
      else none

theorem parseStrLit_length {s content after : List Char}
    (h : parseStrLit s = some (content, after)) : after.length < s.length := by
  cases s with
  | nil => cases h
  | cons c rest =>
    simp only [parseStrLit] at h
    split at h
    next hc =>
      split at h
      next mid d tail heqsp =>
        split at h
        next hd =>
          simp only [Option.some.injEq, Prod.mk.injEq] at h
          have hsp : rest.span (fun ch => decide (ch ≠ '"')) =
              (rest.takeWhile (fun ch => decide (ch ≠ '"')),
               rest.dropWhile (fun ch => decide (ch ≠ '"'))) :=
            List.span_eq_take_drop _ _
          rw [heqsp] at hsp
          have he : d :: tail = rest.dropWhile (fun ch => decide (ch ≠ '"')) :=
            congrArg Prod.snd hsp
          have hsub : (rest.dropWhile (fun ch => decide (ch ≠ '"'))).length ≤
              rest.length := (List.dropWhile_sublist _).length_le
          rw [← he] at hsub
          have hta := congrArg List.length h.2
          simp only [List.length_cons] at hsub ⊢
          omega
        next hd => cases h
      next heqsp => cases h
    next hc => cases h

/-- `json.loads` restricted to JSON arrays of string literals, which is all
the `extract_prediction_from_prompt` group grammar produces in the examples
of interest: `[]` or `["a", "b", ...]` (other JSON values are mapped to
`none`, which the caller turns into `[]` like a `json.JSONDecodeError`).
The items after the first, with separating commas and whitespace. -/
def jsonItems (s : List Char) : Option (List (List Char)) :=
  match hsl : parseStrLit s with
  | none => none
  | some (item, rest) =>
      match hdw : rest.dropWhile pyIsSpace with
      | c :: tail =>
          if c = ']' then
            if tail.dropWhile pyIsSpace = [] then some [item] else none
          else if c = ',' then
            match jsonItems (tail.dropWhile pyIsSpace) with
            | some l => some (item :: l)
            | none => none
          else none
      | [] => none
termination_by s.length
decreasing_by
  have h1 := parseStrLit_length hsl
  have h2 : (rest.dropWhile pyIsSpace).length ≤ rest.length :=
    (List.dropWhile_sublist _).length_le
  rw [hdw] at h2
  have h3 : (tail.dropWhile pyIsSpace).length ≤ tail.length :=
    (List.dropWhile_sublist _).length_le
  simp only [List.length_cons] at h2
  omega

/-- The whole of the modelled `json.loads` on a bracketed group. -/
def jsonParseStrList (s : List Char) : Option (List (List Char)) :=
  match pyStrip s with
  | c :: t =>
      if c = '[' then
        match t.dropWhile pyIsSpace with
        | [] => none
        | d :: rest =>
            if d = ']' then
              if rest.dropWhile pyIsSpace = [] then some [] else none
            else jsonItems (d :: rest)
      else none
  | [] => none

/-- `extract_prediction_from_prompt(prompt_text)` from
`calculate_metrics.py`: search for the `"prediction": [...]` pattern and
`json.loads` the group; **both** a missing pattern and a JSON decode error
produce the empty list. -/
def extract_prediction_from_prompt (s : List Char) : List (List Char) :=
  match searchPred s with
  | none => []
  | some grp =>
      match jsonParseStrList grp with
      | some l => l
      | none => []

/-- C7 (amended): `parse_output` does make the claimed distinction — it
returns success flag `false` exactly when no `Final Answer: [...]` pattern
occurs in the text, and `([], true)` when the pattern is present with empty
brackets; `extract_prediction_from_prompt`, however, conflates the two
cases: it returns `[]` both when its pattern is missing and when the
pattern carries the empty JSON list. -/
theorem C7_answer_extraction_amended (s : List Char) :
    ((parse_output s).2 = false ↔ ¬ hasFinalAnswer s) ∧
    (∀ content, searchFA s = some content → pyStrip content = [] →
      parse_output s = ([], true)) ∧
    (searchPred s = none → extract_prediction_from_prompt s = []) ∧
    (∀ grp, searchPred s = some grp → jsonParseStrList grp = some [] →
      extract_prediction_from_prompt s = []) := by
  refine ⟨?_, ?_, ?_, ?_⟩
  · rw [← searchFA_isSome_iff]
    cases hsr : searchFA s with
    | none =>
      have hf : (parse_output s).2 = false := by
        unfold parse_output
        split
        next => rfl
        next c heq =>
          rw [hsr] at heq
          cases heq
      simp [hf, hsr]
    | some content =>
      have ht : (parse_output s).2 = true := by
        unfold parse_output
        split
        next heq =>
          rw [hsr] at heq
          cases heq
        next c heq =>
          split_ifs <;> rfl
      simp [ht, hsr]
  · intro content hsr hst
    unfold parse_output
    split
    next heq =>
      rw [hsr] at heq
      cases heq
    next c heq =>
      rw [hsr] at heq
      injection heq with hc
      subst hc
      rw [if_pos hst]
  · intro h
    simp only [extract_prediction_from_prompt, h]
  · intro grp h1 h2
    simp only [extract_prediction_from_prompt, h1, h2]

/-- Witness for C7: a text with the pattern and empty brackets yields
`([], true)`; a text without the prediction pattern yields `[]`. -/
theorem C7_answer_extraction_amended_witness :
    parse_output "Final Answer: []".toList = ([], true) ∧
    extract_prediction_from_prompt "nothing".toList = [] := by
  refine ⟨(C7_answer_extraction_amended "Final Answer: []".toList).2.1 [] ?_ ?_,
    (C7_answer_extraction_amended "nothing".toList).2.2.1 ?_⟩
  · decide
  · decide
  · decide

/-- C7 counterexample: `extract_prediction_from_prompt` returns the same
empty list for a text without the `"prediction"` pattern and for a text
whose pattern carries the empty list, so the claimed distinction between
"no parseable answer found" and "found an empty list" does not exist for
this function. -/
theorem C7_counterexample :
    searchPred "no prediction here".toList = none ∧
    (searchPred "\"prediction\": []".toList).isSome = true ∧
    extract_prediction_from_prompt "no prediction here".toList = [] ∧
    extract_prediction_from_prompt "\"prediction\": []".toList = [] :=
  ⟨by decide, by decide, by decide, by decide⟩

/-! ## Pipeline handling of parse failures (C6) -/

/-- One input record of `modern_metrics.main`: problem type, the raw model
output text, and the ground-truth nodes. -/
structure ModernItem where
  problem_type : String
  output : List Char
  answer_nodes : List (List Char)

/-- The per-item loop of `modern_metrics.main` (lines 114-146): parse the
output; when parsing fails, count the failure and skip the item entirely
(`continue`); otherwise score it and append the score to its problem type's
list.  Returns (bfs scores, parents scores, parsing failures). -/
def modernFold : List ModernItem → List Scores × List Scores × ℕ
  | [] => ([], [], 0)
  | item :: rest =>
      let r := modernFold rest
      if (parse_output item.output).2 = false then (r.1, r.2.1, r.2.2 + 1)
      else if item.problem_type = "bfs" then
        (calculate_metrics_modern (parse_output item.output).1 item.answer_nodes :: r.1,
         r.2.1, r.2.2)
      else if item.problem_type = "parents" then
        (r.1,
         calculate_metrics_modern (parse_output item.output).1 item.answer_nodes :: r.2.1,
         r.2.2)
      else r

/-- One input record of `classic_metrics.main`: problem type, the stored
output (a node list, or `none` for the parsing-error string that
`executar_operacao_do_prompt` returns on failure), and the ground truth. -/
structure ClassicItem where
  problem_type : String
  output : Option (List (List Char))
  answer_nodes : List (List Char)

/-- The record stream of `classic_metrics.main` (lines 81-98): every line
is scored by `calculate_metrics` — there is no exclusion step — and the
(stratum, score) pair feeds the accumulator. -/
def classicRecords (items : List ClassicItem) : List (String × Scores) :=
  items.map fun it => (it.problem_type, calculate_metrics it.output it.answer_nodes)

/-- C6 (amended): the modern pipeline signals parse failures distinctly and
excludes them from scoring — its per-stratum score lists are exactly the
scores of the items whose output parses, and failures are only counted —
while the classic pipeline excludes nothing: `calculate_metrics` coerces a
non-list output (the parsing-error string) to the empty prediction and
every item, parse failure or not, yields a scored record. -/
theorem C6_parse_failure_handling_amended (items : List ModernItem)
    (true_nodes : List (List Char)) (citems : List ClassicItem) :
    ((modernFold items).1 =
        ((items.filter fun it =>
            (parse_output it.output).2 && (it.problem_type == "bfs")).map
          fun it => calculate_metrics_modern (parse_output it.output).1 it.answer_nodes) ∧
      (modernFold items).2.1 =
        ((items.filter fun it =>
            (parse_output it.output).2 && (it.problem_type == "parents")).map
          fun it => calculate_metrics_modern (parse_output it.output).1 it.answer_nodes) ∧
      (modernFold items).2.2 =
        (items.filter fun it => !(parse_output it.output).2).length) ∧
    calculate_metrics (none : Option (List (List Char))) true_nodes =
      calculate_metrics (some ([] : List (List Char))) true_nodes ∧
    (classicRecords citems).length = citems.length := by
  refine ⟨?_, rfl, by simp [classicRecords]⟩
  induction items with
  | nil => exact ⟨rfl, rfl, rfl⟩
  | cons item rest ih =>
    obtain ⟨ih1, ih2, ih3⟩ := ih
    by_cases hflag : (parse_output item.output).2 = false
    · refine ⟨?_, ?_, ?_⟩ <;>
        simp [modernFold, hflag, List.filter_cons, ih1, ih2, ih3]
    · have hflag' : (parse_output item.output).2 = true := by
        cases h : (parse_output item.output).2
        · exact absurd h hflag
        · rfl
      by_cases hbfs : item.problem_type = "bfs"
      · refine ⟨?_, ?_, ?_⟩ <;>
          simp [modernFold, hflag, hflag', hbfs, List.filter_cons, ih1, ih2, ih3]
      · by_cases hpar : item.problem_type = "parents"
        · refine ⟨?_, ?_, ?_⟩ <;>
            simp [modernFold, hflag, hflag', hbfs, hpar, List.filter_cons, ih1, ih2, ih3]
        · refine ⟨?_, ?_, ?_⟩ <;>
            simp [modernFold, hflag, hflag', hbfs, hpar, List.filter_cons, ih1, ih2, ih3]

/-- C6 counterexample: a record whose output is the parsing-error string
(non-list, modelled `none`) with a non-empty ground truth is *not* excluded
by the classic pipeline: it contributes an all-zero score record to its
stratum, silently scoring the failure as zero. -/
theorem C6_counterexample :
    (accumulate "bfs" (classicRecords [⟨"bfs", none, [['a']]⟩])).count = 1 ∧
    (accumulate "bfs" (classicRecords [⟨"bfs", none, [['a']]⟩])).precision = 0 ∧
    (accumulate "bfs" (classicRecords [⟨"bfs", none, [['a']]⟩])).recall' = 0 ∧
    (accumulate "bfs" (classicRecords [⟨"bfs", none, [['a']]⟩])).f1 = 0 := by
  have hcm : calculate_metrics (none : Option (List (List Char))) [['a']] =
      (⟨0, 0, 0⟩ : Scores) := by
    unfold calculate_metrics classicPrecision classicRecall classicF1
    norm_num
  have hcr : classicRecords [⟨"bfs", none, [['a']]⟩] =
      [("bfs", (⟨0, 0, 0⟩ : Scores))] := by
    simp [classicRecords, hcm]
  rw [hcr]
  refine ⟨?_, ?_, ?_, ?_⟩ <;> simp [accumulate, addRecord]

/-! ## The explicit-queue BFS of `classic_prolog.py` (C3)

`bfs_iterative(prolog_facts, start_node, target_depth)`: rebuild the
adjacency dict from the fact list (each fact `points_to('u', 'v')` encodes
the edge `(u, v)`; the strip/replace/split round-trip recovers the pair),
then run a FIFO queue of (node, depth) pairs guarded by a visited set. -/

/-- Every node that appears in some destination list. -/
def allTargets (g : Graph α) : Finset α :=
  g.foldr (fun p s => p.2.toFinset ∪ s) ∅

theorem mem_allTargets_of_mem_adj {g : Graph α} {u x : α} (h : x ∈ adj g u) :
    x ∈ allTargets g := by
  induction g with
  | nil => simp [adj] at h
  | cons p rest ih =>
    obtain ⟨k, vs⟩ := p
    show x ∈ vs.toFinset ∪ allTargets rest
    rw [adj] at h
    rw [Finset.mem_union]
    by_cases hk : k = u
    · rw [if_pos hk] at h
      exact Or.inl (List.mem_toFinset.mpr h)
    · rw [if_neg hk] at h
      exact Or.inr (ih h)

/-- The inner `for neighbor in adj_list.get(current_node, [])` loop of
`bfs_iterative` (`classic_prolog.py` lines 54-57): each not-yet-visited
neighbor is marked visited and appended to the queue with depth `d`. -/
def addNbrs : List α → ℕ → Finset α → List (α × ℕ) → Finset α × List (α × ℕ)
  | [], _, vis, q => (vis, q)
  | v :: vs, d, vis, q =>
      if v ∈ vis then addNbrs vs d vis q
      else addNbrs vs d (insert v vis) (q ++ [(v, d)])

/-- The sublist of first occurrences of elements of `vs` not in `vis`. -/
def newNodes (vis : Finset α) : List α → List α
  | [] => []
  | v :: vs => if v ∈ vis then newNodes vis vs else v :: newNodes (insert v vis) vs

theorem addNbrs_eq : ∀ (vs : List α) (d : ℕ) (vis : Finset α) (q : List (α × ℕ)),
    addNbrs vs d vis q =
      (vis ∪ (newNodes vis vs).toFinset,
       q ++ (newNodes vis vs).map (fun v => (v, d))) := by
  intro vs
  induction vs with
  | nil => intro d vis q; simp [addNbrs, newNodes]
  | cons v vs ih =>
    intro d vis q
    by_cases hv : v ∈ vis
    · rw [addNbrs, if_pos hv, newNodes, if_pos hv, ih]
    · rw [addNbrs, if_neg hv, newNodes, if_neg hv, ih]
      rw [List.toFinset_cons, List.map_cons, Prod.mk.injEq]
      constructor
      · ext x
        simp only [Finset.mem_union, Finset.mem_insert, List.mem_toFinset]
        tauto
      · rw [List.append_assoc]
        rfl

theorem newNodes_toFinset : ∀ (vs : List α) (vis : Finset α),
    (newNodes vis vs).toFinset = vs.toFinset \ vis := by
  intro vs
  induction vs with
  | nil => intro vis; simp [newNodes]
  | cons v vs ih =>
    intro vis
    by_cases hv : v ∈ vis
    · rw [newNodes, if_pos hv, ih]
      ext x
      simp only [Finset.mem_sdiff, List.toFinset_cons, Finset.mem_insert]
      constructor
      · rintro ⟨hx, hnx⟩
        exact ⟨Or.inr hx, hnx⟩
      · rintro ⟨hx | hx, hnx⟩
        · exact absurd (hx ▸ hv) hnx
        · exact ⟨hx, hnx⟩
    · rw [newNodes, if_neg hv, List.toFinset_cons, ih]
      ext x
      simp only [Finset.mem_insert, Finset.mem_sdiff, List.toFinset_cons]
      by_cases hx : x = v
      · subst hx
        simp [hv]
      · simp [hx]

theorem addNbrs_vis_cases (vs : List α) (d : ℕ) (vis : Finset α) (q : List (α × ℕ)) :
    ((addNbrs vs d vis q).1 = vis ∧ (addNbrs vs d vis q).2 = q) ∨
    (vis ⊂ (addNbrs vs d vis q).1 ∧ (addNbrs vs d vis q).1 ⊆ vis ∪ vs.toFinset) := by
  by_cases hN : newNodes vis vs = []
  · left
    rw [addNbrs_eq, hN]
    simp
  · right
    rw [addNbrs_eq]
    obtain ⟨v, vs', hv⟩ : ∃ v vs', newNodes vis vs = v :: vs' := by
      cases hc : newNodes vis vs with
      | nil => exact absurd hc hN
      | cons a b => exact ⟨a, b, rfl⟩
    have hvmem : v ∈ (newNodes vis vs).toFinset := by
      rw [hv]
      exact List.mem_toFinset.mpr (List.mem_cons_self _ _)
    have hvnot : v ∉ vis := by
      have h' := hvmem
      rw [newNodes_toFinset] at h'
      exact (Finset.mem_sdiff.mp h').2
    constructor
    · show vis ⊂ vis ∪ (newNodes vis vs).toFinset
      rw [Finset.ssubset_iff_of_subset Finset.subset_union_left]
      exact ⟨v, Finset.mem_union_right _ hvmem, hvnot⟩
    · show vis ∪ (newNodes vis vs).toFinset ⊆ vis ∪ vs.toFinset
      rw [newNodes_toFinset]
      intro x hx
      rcases Finset.mem_union.mp hx with h | h
      · exact Finset.mem_union_left _ h
      · exact Finset.mem_union_right _ (Finset.mem_sdiff.mp h).1

/-- The `while queue:` loop of `bfs_iterative` (`classic_prolog.py` lines
46-57): pop `(node, d)`; if `d ≥ target` record the node when `d = target`
and do not expand it; otherwise enqueue its unvisited neighbors at depth
`d + 1`. -/
def bfsLoop (g : Graph α) (target : ℕ) : List (α × ℕ) → Finset α → List α → List α
  | [], _, acc => acc
  | (node, d) :: rest, vis, acc =>
      if target ≤ d then
        bfsLoop g target rest vis (if d = target then acc ++ [node] else acc)
      else
        bfsLoop g target (addNbrs (adj g node) (d + 1) vis rest).2
          (addNbrs (adj g node) (d + 1) vis rest).1 acc
termination_by q vis acc => ((allTargets g \ vis).card, q.length)
decreasing_by
  · apply Prod.Lex.right
    simp
  · rcases addNbrs_vis_cases (adj g node) (d + 1) vis rest with ⟨h1, h2⟩ | ⟨h1, h2⟩
    · rw [h1, h2]
      apply Prod.Lex.right
      simp
    · apply Prod.Lex.left
      apply Finset.card_lt_card
      rw [Finset.ssubset_iff_of_subset (Finset.sdiff_subset_sdiff (le_refl _)
        h1.subset)]
      obtain ⟨y, hy1, hy2⟩ := Finset.exists_of_ssubset h1
      have hyT : y ∈ allTargets g := by
        have : y ∈ vis ∪ (adj g node).toFinset := h2 hy1
        rcases Finset.mem_union.mp this with h | h
        · exact absurd h hy2
        · exact mem_allTargets_of_mem_adj (List.mem_toFinset.mp h)
      refine ⟨y, Finset.mem_sdiff.mpr ⟨hyT, hy2⟩, ?_⟩
      intro hc
      exact (Finset.mem_sdiff.mp hc).2 hy1

theorem bfsLoop_nil (g : Graph α) (target : ℕ) (vis : Finset α) (acc : List α) :
    bfsLoop g target [] vis acc = acc := by
  rw [bfsLoop.eq_def]

theorem bfsLoop_cons_ge (g : Graph α) (target : ℕ) (node : α) (d : ℕ)
    (rest : List (α × ℕ)) (vis : Finset α) (acc : List α) (h : target ≤ d) :
    bfsLoop g target ((node, d) :: rest) vis acc =
      bfsLoop g target rest vis (if d = target then acc ++ [node] else acc) := by
  conv_lhs => rw [bfsLoop.eq_def]
  show (if target ≤ d then
      bfsLoop g target rest vis (if d = target then acc ++ [node] else acc)
    else
      bfsLoop g target (addNbrs (adj g node) (d + 1) vis rest).2
        (addNbrs (adj g node) (d + 1) vis rest).1 acc) = _
  rw [if_pos h]

theorem bfsLoop_cons_lt (g : Graph α) (target : ℕ) (node : α) (d : ℕ)
    (rest : List (α × ℕ)) (vis : Finset α) (acc : List α) (h : ¬ target ≤ d) :
    bfsLoop g target ((node, d) :: rest) vis acc =
      bfsLoop g target (addNbrs (adj g node) (d + 1) vis rest).2
        (addNbrs (adj g node) (d + 1) vis rest).1 acc := by
  conv_lhs => rw [bfsLoop.eq_def]
  show (if target ≤ d then
      bfsLoop g target rest vis (if d = target then acc ++ [node] else acc)
    else
      bfsLoop g target (addNbrs (adj g node) (d + 1) vis rest).2
        (addNbrs (adj g node) (d + 1) vis rest).1 acc) = _
  rw [if_neg h]

/-- Draining a queue whose entries all sit at the target depth appends the
nodes to the accumulator in order. -/
theorem bfsLoop_drain (g : Graph α) (target : ℕ) :
    ∀ (L : List α) (vis : Finset α) (acc : List α),
      bfsLoop g target (L.map fun a => (a, target)) vis acc = acc ++ L := by
  intro L
  induction L with
  | nil =>
    intro vis acc
    rw [List.map_nil, bfsLoop_nil, List.append_nil]
  | cons a L ih =>
    intro vis acc
    rw [List.map_cons, bfsLoop_cons_ge _ _ _ _ _ _ _ (le_refl target),
      if_pos rfl, ih]
    rw [List.append_assoc]
    rfl

/-- The sequential frontier expansion of one whole level: fold the visited
set and the list of newly discovered nodes over the level's nodes. -/
def levelFold (g : Graph α) : List α → Finset α → List α → Finset α × List α
  | [], vis, out => (vis, out)
  | n :: ns, vis, out =>
      levelFold g ns (vis ∪ (newNodes vis (adj g n)).toFinset)
        (out ++ newNodes vis (adj g n))

/-- Processing the whole depth-`d` prefix of the queue (with the next
level's partial content behind it) performs exactly one `levelFold`. -/
theorem bfsLoop_level (g : Graph α) (target d : ℕ) (hd : d < target) :
    ∀ (L out : List α) (vis : Finset α) (acc : List α),
      bfsLoop g target ((L.map fun a => (a, d)) ++ (out.map fun a => (a, d + 1)))
          vis acc =
        bfsLoop g target ((levelFold g L vis out).2.map fun a => (a, d + 1))
          (levelFold g L vis out).1 acc := by
  intro L
  induction L with
  | nil =>
    intro out vis acc
    rw [List.map_nil, List.nil_append]
    rfl
  | cons n L ih =>
    intro out vis acc
    rw [List.map_cons, List.cons_append,
      bfsLoop_cons_lt _ _ _ _ _ _ _ (by omega), addNbrs_eq]
    have hq : (L.map fun a => (a, d)) ++ (out.map fun a => (a, d + 1)) ++
        ((newNodes vis (adj g n)).map fun v => (v, d + 1)) =
        (L.map fun a => (a, d)) ++
          ((out ++ newNodes vis (adj g n)).map fun a => (a, d + 1)) := by
      rw [List.map_append, List.append_assoc]
    rw [hq, ih]
    rfl

/-- `levelFold` computes the frontier expansion of `bfsStep`: the appended
node list enumerates exactly the unvisited neighbors of the level. -/
theorem levelFold_spec (g : Graph α) :
    ∀ (L : List α) (vis : Finset α) (out : List α),
      ∃ E : List α,
        (levelFold g L vis out).2 = out ++ E ∧
        E.toFinset = (L.toFinset.biUnion fun u => (adj g u).toFinset) \ vis ∧
        (levelFold g L vis out).1 = vis ∪ E.toFinset := by
  intro L
  induction L with
  | nil =>
    intro vis out
    exact ⟨[], by simp [levelFold], by simp, by simp [levelFold]⟩
  | cons n L ih =>
    intro vis out
    obtain ⟨E', h1, h2, h3⟩ := ih (vis ∪ (newNodes vis (adj g n)).toFinset)
      (out ++ newNodes vis (adj g n))
    refine ⟨newNodes vis (adj g n) ++ E', ?_, ?_, ?_⟩
    · show (levelFold g L _ _).2 = _
      rw [h1, List.append_assoc]
    · rw [List.toFinset_append, h2, newNodes_toFinset, List.toFinset_cons,
        Finset.biUnion_insert]
      ext x
      simp only [Finset.mem_union, Finset.mem_sdiff, List.mem_toFinset]
      tauto
    · show (levelFold g L _ _).1 = _
      rw [h3, List.toFinset_append, Finset.union_assoc]

/-- Running the queue loop from the level-`k` frontier (as a queue of
depth-`k` entries with the level's visited set) produces a list enumerating
the level-`target` frontier. -/
theorem bfsLoop_runs (g : Graph α) (start : α) (target : ℕ) :
    ∀ (j k : ℕ), k + j = target →
      ∀ (E : List α) (acc : List α), E.toFinset = (bfsIter g start k).1 →
        ∃ R : List α,
          bfsLoop g target (E.map fun a => (a, k)) (bfsIter g start k).2 acc =
            acc ++ R ∧
          R.toFinset = (bfsIter g start target).1 := by
  intro j
  induction j with
  | zero =>
    intro k hk E acc hE
    have hkt : k = target := by omega
    subst hkt
    exact ⟨E, bfsLoop_drain g k E _ acc, hE⟩
  | succ j ih =>
    intro k hk E acc hE
    have hlt : k < target := by omega
    have happ : (E.map fun a => (a, k)) =
        (E.map fun a => (a, k)) ++ (([] : List α).map fun a => (a, k + 1)) := by
      simp
    rw [happ, bfsLoop_level g target k hlt]
    obtain ⟨E', h1, h2, h3⟩ := levelFold_spec g E (bfsIter g start k).2 []
    rw [List.nil_append] at h1
    have hfront : E'.toFinset = (bfsIter g start (k + 1)).1 := by
      rw [h2, hE]
      rfl
    have hvis : (levelFold g E (bfsIter g start k).2 []).1 =
        (bfsIter g start (k + 1)).2 := by
      rw [h3, hfront]
      show _ = (bfsIter g start k).2 ∪ _
      rw [← hfront, h2, hE]
    rw [h1, hvis]
    exact ih (k + 1) (by omega) E' acc hfront

/-- `start ∉ adj_list` ⇒ `adj` is empty. -/
theorem adj_eq_nil_of_not_key {g : Graph α} {u : α} (h : u ∉ g.map Prod.fst) :
    adj g u = [] := by
  induction g with
  | nil => rfl
  | cons p rest ih =>
    obtain ⟨k, vs⟩ := p
    rw [List.map_cons, List.mem_cons] at h
    push_neg at h
    rw [adj, if_neg (fun hc => h.1 hc.symm)]
    exact ih h.2

/-- `bfs_iterative(prolog_facts, start_node, target_depth)` from
`classic_prolog.py`: rebuild the adjacency dict from the fact list, return
`[]` when the start node has no entry and the depth is positive, otherwise
run the queue loop and return the sorted, deduplicated nodes collected at
the target depth, excluding the start node. -/
def bfs_iterative (facts : List (α × α)) (start : α) (targetDepth : ℕ) : List α :=
  if start ∉ (buildGraph facts).map Prod.fst ∧ 0 < targetDepth then []
  else
    ((bfsLoop (buildGraph facts) targetDepth [(start, 0)] {start} []).filter
      (fun v => decide (v ≠ start))).toFinset.sort (· ≤ ·)

/-- C3: the explicit-queue BFS of `classic_prolog.py` applied to the fact
list and the level-synchronous `find_bfs_at_depth` of
`classic_technique.py` applied to the adjacency mapping of the same edges
return the same result list, for every graph, start node and depth. -/
theorem C3_bfs_iterative_eq_find_bfs_at_depth (facts : List (α × α)) (start : α)
    (d : ℕ) :
    bfs_iterative facts start d = find_bfs_at_depth (buildGraph facts) start d := by
  by_cases hguard : start ∉ (buildGraph facts).map Prod.fst ∧ 0 < d
  · rw [bfs_iterative, if_pos hguard]
    obtain ⟨hstart, hd⟩ := hguard
    have hadj : adj (buildGraph facts) start = [] := adj_eq_nil_of_not_key hstart
    have hfront : ∀ n, (bfsIter (buildGraph facts) start (n + 1)).1 = ∅ := by
      intro n
      induction n with
      | zero =>
        show ((bfsIter (buildGraph facts) start 0).1.biUnion fun u =>
          (adj (buildGraph facts) u).toFinset) \ _ = ∅
        rw [show (bfsIter (buildGraph facts) start 0).1 = {start} from rfl]
        rw [Finset.singleton_biUnion, hadj]
        simp
      | succ n ih =>
        show ((bfsIter (buildGraph facts) start (n + 1)).1.biUnion fun u =>
          (adj (buildGraph facts) u).toFinset) \ _ = ∅
        rw [ih]
        simp
    rw [find_bfs_at_depth, if_neg (by omega)]
    obtain ⟨m, rfl⟩ : ∃ m, d = m + 1 := ⟨d - 1, by omega⟩
    rw [hfront m, Finset.sort_empty]
  · rw [bfs_iterative, if_neg hguard]
    obtain ⟨R, hrun, hRt⟩ := bfsLoop_runs (buildGraph facts) start d d 0
      (by omega) [start] [] (by rfl)
    rw [List.nil_append] at hrun
    have hb : bfsLoop (buildGraph facts) d [(start, 0)] {start} [] = R := hrun
    rw [hb]
    have hfilter : (R.filter fun v => decide (v ≠ start)).toFinset =
        if d = 0 then (R.toFinset.erase start) else R.toFinset := by
      rw [List.toFinset_filter]
      by_cases hd0 : d = 0
      · rw [if_pos hd0]
        ext x
        simp [Finset.mem_erase, Finset.mem_filter, and_comm]
      · rw [if_neg hd0]
        apply Finset.filter_true_of_mem
        intro x hx
        rw [List.mem_toFinset] at hx
        have hx' : x ∈ (bfsIter (buildGraph facts) start d).1 := hRt ▸
          List.mem_toFinset.mpr hx
        obtain ⟨m, rfl⟩ : ∃ m, d = m + 1 := ⟨d - 1, by omega⟩
        obtain ⟨-, hmin⟩ := ((bfsIter_mem (buildGraph facts) start (m + 1)).1 x).mp hx'
        simp only [decide_eq_true_eq]
        intro hxs
        subst hxs
        exact hmin 0 (by omega) rfl
    rw [hfilter]
    by_cases hd0 : d = 0
    · subst hd0
      rw [if_pos rfl, find_bfs_at_depth, if_pos rfl]
      have hR : R.toFinset = {start} := hRt
      rw [hR, Finset.erase_singleton, Finset.sort_empty]
    · rw [if_neg hd0, find_bfs_at_depth, if_neg hd0, hRt]

end GraphWalk
